import Mathlib

/-!
Verification of the synchronization engine of `db-schema-sync`
(`cmd/db-schema-sync/main.go`).  Go strings are modelled as Lean `String`
(a wrapper around `List Char`; Go's byte-wise string order coincides with
code-point order on valid UTF-8, which UTF-8 encoding preserves).  The
external collaborators (S3 client, PostgreSQL advisory lock, the `psqldef`
differ, hook subprocesses) are modelled as oracles: a `CycleEnv` record
holds the outcome each external call would produce, and `runSync` returns
the resulting cycle outcome together with the trace of external effects it
performs.  The metrics recorders (`recordS3FetchAttempt` etc.) only update
exported gauges and never influence control flow, so they are not modelled.
-/

namespace DbSchemaSync

/-! ### Three-way comparators (Go's `<` on integers and strings) -/

/-- Three-way comparison of naturals, with Go's `-1`/`0`/`1` convention. -/
def natCmp (a b : Nat) : Int := if a < b then -1 else if b < a then 1 else 0

/-- Three-way comparison of characters by code point (Go compares bytes;
on valid UTF-8 the induced string orders coincide). -/
def chCmp (a b : Char) : Int := natCmp a.toNat b.toNat

/-- Lexicographic three-way comparison of lists by an element comparator;
models Go's byte-wise string comparison when instantiated with `chCmp`. -/
def listCmpBy (f : α → α → Int) : List α → List α → Int
  | [], [] => 0
  | [], _ :: _ => -1
  | _ :: _, [] => 1
  | a :: as, b :: bs => if f a b = 0 then listCmpBy f as bs else f a b

/-- Go's built-in string comparison (`v1 < v2` / `v1 > v2`), three-way. -/
def strCmp (a b : String) : Int := listCmpBy chCmp a.data b.data

/-! ### Go `path` package model

`buildCompletionMarkerKey` and `findLatestVersion` use `path.Dir`,
`path.Base` and `path.Join` from the Go standard library (slash-separated
paths, `path.Clean` semantics).  These are modelled here at the level of
`List Char`, with components handled by an explicit split/clean/render
pipeline equivalent to Go's `path.Clean` lazybuf algorithm. -/

/-- Split a character list on a separator; models `strings.Split`
(always returns at least one component). -/
def splitCh (sep : Char) : List Char → List (List Char)
  | [] => [[]]
  | c :: rest =>
    match splitCh sep rest with
    | [] => [[]]
    | h :: t => if c = sep then [] :: h :: t else (c :: h) :: t

/-- Join components with `'/'` (inverse of `splitCh '/'` on slash-free
nonempty component lists). -/
def joinComps : List (List Char) → List Char
  | [] => []
  | [c] => c
  | c :: c2 :: rest => c ++ '/' :: joinComps (c2 :: rest)

/-- Does the path start with `'/'`? (Go `path[0] == '/'`.) -/
def isRooted : List Char → Bool
  | c :: _ => c = '/'
  | [] => false

/-- One step of `path.Clean`'s element processing: empty and `"."`
components are dropped, `".."` pops the stack (except past the root, or
past leading `".."`s of a relative path), anything else is pushed.
The stack is kept reversed (`head` = last emitted component). -/
def cleanStep (rooted : Bool) (stack : List (List Char)) (c : List Char) :
    List (List Char) :=
  if c = [] ∨ c = ['.'] then stack
  else if c = ['.', '.'] then
    match stack with
    | [] => if rooted then [] else [['.', '.']]
    | top :: rest => if top = ['.', '.'] then ['.', '.'] :: top :: rest else rest
  else c :: stack

/-- Process all components of a path as `path.Clean` does. -/
def cleanFold (rooted : Bool) (comps : List (List Char)) : List (List Char) :=
  (comps.foldl (cleanStep rooted) []).reverse

/-- Render a cleaned component list back to a path (Go `path.Clean`'s
output shape: a leading `'/'` when rooted, `"."` for an empty relative
result). -/
def renderPath (rooted : Bool) (comps : List (List Char)) : List Char :=
  if rooted then '/' :: joinComps comps
  else if comps = [] then ['.'] else joinComps comps

/-- Go `path.Clean`, on character lists. -/
def cleanChars (p : List Char) : List Char :=
  if p = [] then ['.']
  else renderPath (isRooted p) (cleanFold (isRooted p) (splitCh '/' p))

/-- The prefix of `p` up to and including its last `'/'` (Go
`path.Split`'s `dir` half); `[]` when `p` has no slash. -/
def dirPre : List Char → List Char
  | [] => []
  | c :: rest =>
    if ('/' : Char) ∈ rest then c :: dirPre rest
    else if c = '/' then ['/'] else []

/-- Go `path.Dir`: `Clean` of the directory part. -/
def goDir (s : String) : String := ⟨cleanChars (dirPre s.data)⟩

/-- Strip trailing slashes (first step of Go `path.Base`). -/
def dropTrailingSlashes (p : List Char) : List Char :=
  (p.reverse.dropWhile (fun c => c = '/')).reverse

/-- The suffix of `p` after its last `'/'` (`p` itself when slash-free). -/
def afterLastSlash : List Char → List Char
  | [] => []
  | c :: rest =>
    if ('/' : Char) ∈ rest then afterLastSlash rest
    else if c = '/' then rest else c :: rest

/-- Go `path.Base`. -/
def goBase (s : String) : String :=
  if s.data = [] then "."
  else
    let q := dropTrailingSlashes s.data
    if q = [] then "/" else ⟨afterLastSlash q⟩

/-- Go's variadic `path.Join` on character lists: concatenate the
elements with slashes, skipping empties at the front, then `Clean`;
all-empty input yields the empty path. -/
def joinChars (elems : List (List Char)) : List Char :=
  let buf := elems.foldl
    (fun buf e => if buf = [] then e else buf ++ '/' :: e) []
  if buf = [] then [] else cleanChars buf

/-- Go `path.Join` with two elements. -/
def goJoin (a b : String) : String := ⟨joinChars [a.data, b.data]⟩

/-- Go `path.Join` with three elements (as used for the artifact key). -/
def goJoin3 (a b c : String) : String := ⟨joinChars [a.data, b.data, c.data]⟩

/-! ### Version model

`Modelled from the spec:` the version parser and comparator used by the
code live in the external library `github.com/hashicorp/go-version`, whose
source is not part of this repository.  The spec describes it as: "parsing
the token as a semantic version (optional leading `v`,
`MAJOR.MINOR.PATCH[-PRERELEASE]`, or a bare integer sequence such as `v1`,
`v10`)", with numeric segment ordering (so shorter segment lists behave as
zero-padded) and a prerelease ranking strictly below the corresponding
release.  The definitions below follow those words. -/

/-- A parsed version: numeric segments plus prerelease parts
(empty list = a release, no prerelease). -/
structure GoVersion where
  segments : List Nat
  pre : List String
deriving DecidableEq

/-- Is `c` an ASCII decimal digit? -/
def isDigitCh (c : Char) : Bool := '0' ≤ c ∧ c ≤ '9'

/-- Decimal value of a digit list (assumes all digits). -/
def digitsToNat (cs : List Char) : Nat :=
  cs.foldl (fun acc c => acc * 10 + (c.toNat - '0'.toNat)) 0

/-- Parse a nonempty all-digit character list as a natural number. -/
def parseNatStrict (cs : List Char) : Option Nat :=
  if cs ≠ [] ∧ cs.all isDigitCh then some (digitsToNat cs) else none

/-- Parse every dot-separated core segment as a number; any failure makes
the whole version token unparseable. -/
def parseSegs : List (List Char) → Option (List Nat)
  | [] => some []
  | c :: rest =>
    match parseNatStrict c, parseSegs rest with
    | some n, some ns => some (n :: ns)
    | _, _ => none

/-- Split at the first `'-'`: the version core and the optional
prerelease remainder. -/
def breakAtDash : List Char → List Char × Option (List Char)
  | [] => ([], none)
  | c :: rest =>
    if c = '-' then ([], some rest)
    else
      match breakAtDash rest with
      | (core, pre) => (c :: core, pre)

/-- `Modelled from the spec:` `version.NewVersion` of
`hashicorp/go-version` — optional leading `v`, dot-separated numeric
segments, optional nonempty `-PRERELEASE` suffix (parts split on `.`);
anything else fails to parse. -/
def version_NewVersion (s : String) : Option GoVersion :=
  let cs := match s.data with
    | 'v' :: rest => rest
    | other => other
  match breakAtDash cs with
  | (core, preOpt) =>
    match parseSegs (splitCh '.' core) with
    | none => none
    | some segs =>
      match preOpt with
      | none => some ⟨segs, []⟩
      | some [] => none
      | some p => some ⟨segs, (splitCh '.' p).map (fun l => (⟨l⟩ : String))⟩

/-- Are all remaining segments zero? (go-version's `allZero`.) -/
def allZero : List Nat → Bool
  | [] => true
  | a :: as => a = 0 && allZero as

/-- Compare numeric segment lists, implicitly zero-padding the shorter
one (so `1` = `1.0.0`, matching the spec's bare-integer examples): when
one side runs out, the other side wins unless its remainder is all
zeros. -/
def segCmp : List Nat → List Nat → Int
  | [], bs => if allZero bs then 0 else -1
  | a :: as, [] => if allZero (a :: as) then 0 else 1
  | a :: as, b :: bs => if a < b then -1 else if b < a then 1 else segCmp as bs

/-- Compare two prerelease parts: numeric parts compare numerically and
rank below non-numeric parts; non-numeric parts compare as strings. -/
def partCmp (a b : String) : Int :=
  match parseNatStrict a.data, parseNatStrict b.data with
  | some x, some y => natCmp x y
  | some _, none => -1
  | none, some _ => 1
  | none, none => strCmp a b

/-- Compare prerelease part lists: a release (no parts) ranks above any
prerelease; otherwise lexicographic on parts. -/
def preCmp (a b : List String) : Int :=
  match a, b with
  | [], [] => 0
  | [], _ :: _ => 1
  | _ :: _, [] => -1
  | _ :: _, _ :: _ => listCmpBy partCmp a b

/-- `Modelled from the spec:` the ordering on parsed versions — numeric
segments first, then the prerelease ranking. -/
def goVersionCmp (v w : GoVersion) : Int :=
  if segCmp v.segments w.segments = 0 then preCmp v.pre w.pre
  else segCmp v.segments w.segments

/-! ### Version resolution (`main.go`) -/

/-- `compareVersions` (main.go): parse both strings; if either fails,
fall back to Go's raw string comparison, otherwise compare the parsed
versions (`LessThan`/`GreaterThan`). -/
def compareVersions (v1 v2 : String) : Int :=
  match version_NewVersion v1, version_NewVersion v2 with
  | some a, some b => goVersionCmp a b
  | _, _ => strCmp v1 v2

/-- The `(original, parsed)` pairs that survive parsing in
`findMaxVersion` (unparseable tokens are skipped with a warning). -/
def parsePairs (versionStrings : List String) : List (String × GoVersion) :=
  versionStrings.filterMap fun vs => (version_NewVersion vs).map (fun v => (vs, v))

/-- Pick a maximum pair.  The Go code sorts with the unstable `sort.Slice`
by `parsed.LessThan` and takes the last element, so among distinct
originals with equal parsed versions the choice is unspecified; this model
resolves such ties deterministically (first maximal element), and every
property proved about it is insensitive to the tie choice. -/
def maxPair (p0 : String × GoVersion) (rest : List (String × GoVersion)) :
    String × GoVersion :=
  rest.foldl (fun acc q => if goVersionCmp acc.2 q.2 < 0 then q else acc) p0

/-- `findMaxVersion` (main.go): error on an empty input, error when no
token parses, otherwise the original string of a maximal parsed version. -/
def findMaxVersion (versionStrings : List String) : Except String String :=
  if versionStrings = [] then .error "no versions provided"
  else
    match parsePairs versionStrings with
    | [] => .error "no valid versions found"
    | p0 :: rest => .ok (maxPair p0 rest).1

/-- The filtering loop of `findLatestVersion` (main.go): keep keys whose
basename is the schema file name, take the basename of the parent
directory as the version token, and drop `"."` and `"/"` tokens. -/
def filterVersionTokens (keys : List String) (schemaFileName : String) :
    List String :=
  keys.filterMap fun key =>
    if goBase key = schemaFileName then
      let ver := goBase (goDir key)
      if ver ≠ "." ∧ ver ≠ "/" then some ver else none
    else none

/-- `findLatestVersion` (main.go): filter version tokens, error when none
remain, rank the rest with `findMaxVersion`, and build the artifact key
`path.Join(prefix, latestVersion, schemaFileName)`. -/
def findLatestVersion (keys : List String) (pfx schemaFileName : String) :
    Except String (String × String) :=
  let versionStrings := filterVersionTokens keys schemaFileName
  if versionStrings = [] then
    .error ("no schema files found with prefix " ++ pfx ++ " and file name "
      ++ schemaFileName)
  else
    match findMaxVersion versionStrings with
    | .error e => .error ("failed to parse versions: " ++ e)
    | .ok latest => .ok (goJoin3 pfx latest schemaFileName, latest)

/-! ### Completion marker keys (`main.go`) -/

/-- `buildCompletionMarkerKey` (main.go):
`path.Join(path.Dir(schemaKey), completedFileName)`. -/
def buildCompletionMarkerKey (schemaKey completedFileName : String) : String :=
  goJoin (goDir schemaKey) completedFileName

/-- `buildExportedSchemaKey` (main.go):
`path.Join(path.Dir(schemaKey), "exported.sql")`. -/
def buildExportedSchemaKey (schemaKey : String) : String :=
  goJoin (goDir schemaKey) "exported.sql"

/-- Is `sub` a contiguous substring of `hay`? (Go `strings.Contains`.) -/
def containsSub (sub : List Char) : List Char → Bool
  | [] => sub.isPrefixOf []
  | c :: rest => sub.isPrefixOf (c :: rest) || containsSub sub rest

/-- Go `strings.Contains` on strings. -/
def containsSubstr (hay sub : String) : Bool := containsSub sub.data hay.data

/-- `checkCompletionMarker` (main.go), as a function of the `HeadObject`
outcome on the marker key: a `"NotFound"` error message means the marker
does not exist, any other error propagates, success means it exists. -/
def checkCompletionMarker (headResult : Except String Unit) :
    Except String Bool :=
  match headResult with
  | .error e => if containsSubstr e "NotFound" then .ok false else .error e
  | .ok _ => .ok true

/-! ### The sync orchestrator (`runSync`, `main.go`) -/

/-- `HookEnv` (main.go): the contextual environment passed to a hook.
Fields default to `""`; `toEnvVars` exports only the non-empty ones. -/
structure HookEnv where
  s3Bucket : String
  pathPfx : String
  schemaFile : String
  version : String
  error : String
  completedFile : String
  appVersion : String
  stdout : String
  stderr : String
  dryRun : String
deriving DecidableEq

/-- The engine `Version` variable (set by ldflags; `"dev"` by default). -/
def appVersion : String := "dev"

/-- The configuration a `runSync` call receives: the global CLI options
plus the per-command options threaded through as arguments. -/
structure Config where
  s3Bucket : String
  pathPfx : String
  schemaFile : String
  completedFile : String
  exportAfterApply : Bool
  skipLock : Bool
  onS3FetchError : String
  onBeforeApply : String
  onApplyFailed : String
  onApplySucceeded : String
deriving DecidableEq

/-- The process-local mutable state of the engine (`lastAppliedVersion`,
`consecutiveFailureCount`; Go zero values `""` and `0`). -/
structure SyncState where
  lastAppliedVersion : String
  consecutiveFailureCount : Nat
deriving DecidableEq

/-- `ApplyResult` (main.go): captured differ output. -/
structure ApplyResult where
  stdout : String
  stderr : String
deriving DecidableEq

/-- Outcome of `applySchema`: either a failure before the differ runs
(temp-file handling, result is `nil`), or a differ run with captured
output and an optional non-zero-exit error. -/
inductive ApplyOutcome where
  | tmpError (msg : String)
  | ran (res : ApplyResult) (exitErr : Option String)
deriving DecidableEq

/-- Oracle for the external calls one cycle can make: each field is the
outcome that call would produce if the cycle reaches it. -/
structure CycleEnv where
  listObjects : Except String (List String)
  headMarker : Except String Unit
  getObject : Except String String
  lockConnect : Except String Unit
  tryLock : Except String Bool
  dryRun : String × Option String
  applyOutcome : ApplyOutcome
  exportSchema : Except String String
  putExported : Except String Unit
  putMarker : Except String Unit
  unlock : Except String Unit

/-- Externally visible effects of one cycle, in order of occurrence. -/
inductive Effect where
  | listObjects
  | headObject (key : String)
  | getObject (key : String)
  | putObject (key : String)
  | lockConnect
  | tryLock
  | unlock
  | lockClose
  | differDryRun
  | differApply
  | differExport
  | hookCall (name : String) (cmd : String) (env : HookEnv)
deriving DecidableEq

/-- Result, new state and effect trace of one cycle. -/
abbrev SyncOut := Except String Unit × SyncState × List Effect

/-- The constant hook environment built at the top of `runSync`. -/
def baseHookEnv (cfg : Config) : HookEnv :=
  { s3Bucket := cfg.s3Bucket, pathPfx := cfg.pathPfx,
    schemaFile := cfg.schemaFile, completedFile := cfg.completedFile,
    appVersion := appVersion, version := "", error := "", stdout := "",
    stderr := "", dryRun := "" }

/-- `maxConsecutiveFailures` (main.go). -/
def maxConsecutiveFailures : Nat := 3

/-- `findLatestSchema` (main.go): list the bucket under the prefix, then
rank the keys with `findLatestVersion`. -/
def resolveLatest (cfg : Config) (env : CycleEnv) :
    Except String (String × String) :=
  match env.listObjects with
  | .error e => .error e
  | .ok keys => findLatestVersion keys cfg.pathPfx cfg.schemaFile

/-- The tail of `runSync` from the dry-run on (the lock, when taken, is
already held; `deferredFx` are the deferred unlock/close effects emitted
when this stage returns).  A dry-run failure is only logged; its combined
output string is used for the before-apply hook either way.  On apply
failure the apply-failed hook carries the error and, when the differ ran,
the captured stdout/stderr; on success the version is recorded, the
optional export and the completion marker are written (best-effort), and
the apply-succeeded hook runs. -/
def syncApplyStep (cfg : Config) (env : CycleEnv) (st : SyncState)
    (key ver : String) (deferredFx : List Effect) : SyncOut :=
  let beforeEnv := { baseHookEnv cfg with version := ver, dryRun := env.dryRun.1 }
  let pre := [Effect.differDryRun,
    Effect.hookCall "on-before-apply" cfg.onBeforeApply beforeEnv,
    Effect.differApply]
  match env.applyOutcome with
  | .tmpError e =>
    (.error ("failed to apply schema: " ++ e), st,
     pre ++ [Effect.hookCall "on-apply-failed" cfg.onApplyFailed
       { baseHookEnv cfg with version := ver, error := e }] ++ deferredFx)
  | .ran res (some e) =>
    (.error ("failed to apply schema: " ++ e), st,
     pre ++ [Effect.hookCall "on-apply-failed" cfg.onApplyFailed
       { baseHookEnv cfg with
         version := ver
         error := e
         stdout := res.stdout
         stderr := res.stderr }] ++ deferredFx)
  | .ran _ none =>
    let exportFx :=
      if cfg.exportAfterApply then
        Effect.differExport ::
          (match env.exportSchema with
           | .error _ => []
           | .ok _ => [Effect.putObject (buildExportedSchemaKey key)])
      else []
    let markFx :=
      if cfg.completedFile ≠ "" then
        [Effect.putObject (buildCompletionMarkerKey key cfg.completedFile)]
      else []
    (.ok (), { st with lastAppliedVersion := ver },
     pre ++ exportFx ++ markFx ++
       [Effect.hookCall "on-apply-succeeded" cfg.onApplySucceeded
         { baseHookEnv cfg with version := ver }] ++ deferredFx)

/-- The lock acquisition step of `runSync`: skipped entirely when
configured; a connection or query failure aborts the cycle; an
already-held lock ends the cycle as a no-op; otherwise the apply phase
runs with the deferred unlock/close. -/
def syncLockStep (cfg : Config) (env : CycleEnv) (st : SyncState)
    (key ver : String) : SyncOut :=
  if cfg.skipLock then syncApplyStep cfg env st key ver []
  else
    match env.lockConnect with
    | .error e => (.error ("failed to create locker: " ++ e), st,
        [Effect.lockConnect])
    | .ok _ =>
      match env.tryLock with
      | .error e => (.error ("failed to acquire lock: " ++ e), st,
          [Effect.lockConnect, Effect.tryLock, Effect.lockClose])
      | .ok false => (.ok (), st,
          [Effect.lockConnect, Effect.tryLock, Effect.lockClose])
      | .ok true =>
        match syncApplyStep cfg env st key ver [Effect.unlock, Effect.lockClose] with
        | (r, st2, tr) => (r, st2, Effect.lockConnect :: Effect.tryLock :: tr)

/-- The download step of `runSync`: a `GetObject` failure increments the
failure counter (just reset by the successful listing, so it becomes `1`
and the threshold hook cannot fire here) and aborts the cycle. -/
def syncDownloadStep (cfg : Config) (env : CycleEnv) (st : SyncState)
    (key ver : String) : SyncOut :=
  match env.getObject with
  | .error e =>
    let fc := st.consecutiveFailureCount + 1
    (.error ("failed to download schema: " ++ e),
     { st with consecutiveFailureCount := fc },
     Effect.getObject key ::
       (if maxConsecutiveFailures ≤ fc then
          [Effect.hookCall "on-s3-fetch-error" cfg.onS3FetchError
            { baseHookEnv cfg with version := ver, error := e }]
        else []))
  | .ok _ =>
    match syncLockStep cfg env st key ver with
    | (r, st2, tr) => (r, st2, Effect.getObject key :: tr)

/-- The completion-marker step of `runSync`: skipped when no marker file
name is configured; an existing marker caches the version and ends the
cycle as a no-op; a check error is only logged, so both it and a missing
marker continue to the download. -/
def syncMarkerStep (cfg : Config) (env : CycleEnv) (st : SyncState)
    (key ver : String) : SyncOut :=
  if cfg.completedFile ≠ "" then
    let mk := buildCompletionMarkerKey key cfg.completedFile
    match checkCompletionMarker env.headMarker with
    | .ok true =>
      (.ok (), { st with lastAppliedVersion := ver }, [Effect.headObject mk])
    | _ =>
      match syncDownloadStep cfg env st key ver with
      | (r, st2, tr) => (r, st2, Effect.headObject mk :: tr)
  else syncDownloadStep cfg env st key ver

/-- The version-comparison guard of `runSync`: when a last-applied
version is cached and the resolved latest does not compare strictly
greater, the cycle ends as a no-op. -/
def syncAfterResolve (cfg : Config) (env : CycleEnv) (st : SyncState)
    (key ver : String) : SyncOut :=
  if st.lastAppliedVersion ≠ "" ∧ compareVersions ver st.lastAppliedVersion ≤ 0
  then (.ok (), st, [])
  else syncMarkerStep cfg env st key ver

/-- `runSync` (main.go): one synchronization cycle.  A resolution failure
increments the consecutive-failure counter and fires the fetch-error hook
once the counter reaches the threshold; a successful resolution resets
the counter and continues through the guard, marker, download, lock and
apply stages. -/
def runSync (cfg : Config) (env : CycleEnv) (st : SyncState) : SyncOut :=
  match resolveLatest cfg env with
  | .error e =>
    let fc := st.consecutiveFailureCount + 1
    (.error ("failed to find latest schema: " ++ e),
     { st with consecutiveFailureCount := fc },
     Effect.listObjects ::
       (if maxConsecutiveFailures ≤ fc then
          [Effect.hookCall "on-s3-fetch-error" cfg.onS3FetchError
            { baseHookEnv cfg with error := e }]
        else []))
  | .ok (key, ver) =>
    match syncAfterResolve cfg env { st with consecutiveFailureCount := 0 } key ver with
    | (r, st2, tr) => (r, st2, Effect.listObjects :: tr)

/-- The daemon loop (`WatchCmd.Run`): run one cycle per environment,
threading the process-local state; each cycle's outcome and trace are
collected in order. -/
def runCycles (cfg : Config) : List CycleEnv → SyncState →
    List (Except String Unit × List Effect) × SyncState
  | [], st => ([], st)
  | env :: rest, st =>
    match runSync cfg env st with
    | (r, st2, tr) =>
      match runCycles cfg rest st2 with
      | (rs, stF) => ((r, tr) :: rs, stF)

/-! ### Auxiliary definitions used by the verification -/

/-- Segment lists with trailing zeros removed; `segCmp` compares segment
lists exactly as plain lexicographic comparison of their normal forms. -/
def normSegs : List Nat → List Nat
  | [] => []
  | a :: as =>
    match normSegs as with
    | [] => if a = 0 then [] else [a]
    | b :: bs => a :: b :: bs

/-- A path component that is a plain name: nonempty, slash-free and not
one of the special components `"."`, `".."`. -/
def compSimple (c : List Char) : Prop :=
  c ≠ [] ∧ ('/' : Char) ∉ c ∧ c ≠ ['.'] ∧ c ≠ ['.', '.']

/-- No `".."` component occurs. -/
def noDD (comps : List (List Char)) : Prop :=
  ∀ c ∈ comps, c ≠ ['.', '.']

/-- All `".."` components form a prefix of the list. -/
def ddPre : List (List Char) → Prop
  | [] => True
  | c :: rest => (c = ['.', '.'] ∧ ddPre rest) ∨ noDD (c :: rest)

/-- The component list of a cleaned path: components are nonempty,
slash-free and not `"."`; a rooted path has no `".."` at all, a relative
path only as a leading run. -/
def canonComps (rooted : Bool) (comps : List (List Char)) : Prop :=
  (∀ c ∈ comps, c ≠ [] ∧ ('/' : Char) ∉ c ∧ c ≠ ['.']) ∧
  (if rooted then noDD comps else ddPre comps)

/-- The shapes `path.Clean` can return: `"."`, `"/"`, or a rendered
nonempty canonical component list. -/
def canonPath (q : List Char) : Prop :=
  q = ['.'] ∨ q = ['/'] ∨
    ∃ rooted comps, comps ≠ [] ∧ canonComps rooted comps ∧
      q = renderPath rooted comps

/-- The fetch-error hook appears in a trace (with whatever hook
environment the failing step supplied). -/
def fetchHookFired (cfg : Config) (tr : List Effect) : Prop :=
  ∃ he, Effect.hookCall "on-s3-fetch-error" cfg.onS3FetchError he ∈ tr

/-- A sample configuration used by concrete witnesses. -/
def sampleCfg : Config :=
  { s3Bucket := "bkt", pathPfx := "schemas/", schemaFile := "schema.sql",
    completedFile := "completed", exportAfterApply := false, skipLock := false,
    onS3FetchError := "notify-fetch", onBeforeApply := "notify-before",
    onApplyFailed := "notify-failed", onApplySucceeded := "notify-ok" }

/-- A sample happy-path cycle environment used by concrete witnesses. -/
def sampleEnv : CycleEnv :=
  { listObjects := .ok ["schemas/v1/schema.sql", "schemas/v2/schema.sql"],
    headMarker := .error "https response error StatusCode: 404, NotFound",
    getObject := .ok "create table t (id int);",
    lockConnect := .ok (), tryLock := .ok true,
    dryRun := ("+ create table t", none),
    applyOutcome := .ran ⟨"applied", ""⟩ none,
    exportSchema := .ok "create table t (id int);",
    putExported := .ok (), putMarker := .ok (), unlock := .ok () }

/-! ## Theorems

### Comparator foundations -/

theorem natCmp_antisym (a b : Nat) : natCmp a b = -natCmp b a := by
  unfold natCmp; split_ifs <;> omega

theorem natCmp_trans {a b c : Nat} (h1 : natCmp a b = -1)
    (h2 : natCmp b c = -1) : natCmp a c = -1 := by
  unfold natCmp at *; split_ifs at * <;> omega

theorem natCmp_eq_zero {a b : Nat} (h : natCmp a b = 0) : a = b := by
  unfold natCmp at h; split_ifs at h <;> omega

theorem natCmp_self (a : Nat) : natCmp a a = 0 := by
  unfold natCmp; split_ifs <;> omega

theorem chCmp_antisym (a b : Char) : chCmp a b = -chCmp b a :=
  natCmp_antisym _ _

theorem chCmp_trans {a b c : Char} (h1 : chCmp a b = -1)
    (h2 : chCmp b c = -1) : chCmp a c = -1 :=
  natCmp_trans h1 h2

theorem chCmp_eq_zero {a b : Char} (h : chCmp a b = 0) : a = b := by
  have hv : a.toNat = b.toNat := natCmp_eq_zero h
  exact Char.ext (UInt32.ext (by exact_mod_cast hv))

theorem chCmp_zerocong {a b c : Char} (h : chCmp a b = 0) :
    chCmp b c = chCmp a c := by rw [chCmp_eq_zero h]

theorem listCmpBy_antisym (f : α → α → Int)
    (hf : ∀ a b, f a b = -f b a) :
    ∀ as bs, listCmpBy f as bs = -listCmpBy f bs as := by
  intro as
  induction as with
  | nil => intro bs; cases bs <;> simp [listCmpBy]
  | cons a as ih =>
    intro bs
    cases bs with
    | nil => simp [listCmpBy]
    | cons b bs =>
      simp only [listCmpBy]
      by_cases h : f a b = 0
      · have hb : f b a = 0 := by have := hf a b; omega
        simp [h, hb, ih bs]
      · have hb : ¬f b a = 0 := by have := hf a b; omega
        simp [h, hb, hf a b]

theorem listCmpBy_zerocong (f : α → α → Int)
    (hz : ∀ a b c, f a b = 0 → f b c = f a c) :
    ∀ as bs cs, listCmpBy f as bs = 0 →
      listCmpBy f bs cs = listCmpBy f as cs := by
  intro as
  induction as with
  | nil => intro bs cs h; cases bs <;> simp_all [listCmpBy]
  | cons a as ih =>
    intro bs cs h
    cases bs with
    | nil => simp [listCmpBy] at h
    | cons b bs =>
      simp only [listCmpBy] at h
      by_cases hab : f a b = 0
      · simp only [hab, if_pos] at h
        cases cs with
        | nil => simp [listCmpBy]
        | cons c cs =>
          simp only [listCmpBy, hz a b c hab]
          by_cases hac : f a c = 0
          · simp [hac, ih bs cs h]
          · simp [hac]
      · simp [hab] at h

theorem listCmpBy_trans (f : α → α → Int)
    (hf : ∀ a b, f a b = -f b a)
    (ht : ∀ a b c, f a b = -1 → f b c = -1 → f a c = -1)
    (hz : ∀ a b c, f a b = 0 → f b c = f a c) :
    ∀ as bs cs, listCmpBy f as bs = -1 → listCmpBy f bs cs = -1 →
      listCmpBy f as cs = -1 := by
  have hzr : ∀ a b c, f b c = 0 → f a b = f a c := by
    intro a b c h
    have hcb : f c b = 0 := by have := hf b c; omega
    have := hz c b a hcb
    have h1 := hf a b
    have h2 := hf a c
    omega
  intro as
  induction as with
  | nil =>
    intro bs cs h1 h2
    cases bs with
    | nil => simp [listCmpBy] at h1
    | cons b bs =>
      cases cs with
      | nil => simp [listCmpBy] at h2
      | cons c cs => simp [listCmpBy]
  | cons a as ih =>
    intro bs cs h1 h2
    cases bs with
    | nil => simp [listCmpBy] at h1
    | cons b bs =>
      cases cs with
      | nil => simp [listCmpBy] at h2
      | cons c cs =>
        simp only [listCmpBy] at h1 h2 ⊢
        by_cases hab : f a b = 0
        · simp only [hab, if_pos] at h1
          by_cases hbc : f b c = 0
          · simp only [hbc, if_pos] at h2
            have hac : f a c = 0 := by rw [← hz a b c hab]; exact hbc
            simp [hac, ih bs cs h1 h2]
          · simp only [hbc, if_neg, ite_false] at h2
            have hac : f a c = -1 := by rw [← hz a b c hab]; exact h2
            simp [hac]
        · simp only [hab, if_neg, ite_false] at h1
          by_cases hbc : f b c = 0
          · have hac : f a c = f a b := (hzr a b c hbc).symm
            rw [hac, h1]; simp [h1 ▸ hab]
          · simp only [hbc, if_neg, ite_false] at h2
            have hac : f a c = -1 := ht a b c h1 h2
            simp [hac]

theorem strCmp_antisym (a b : String) : strCmp a b = -strCmp b a :=
  listCmpBy_antisym chCmp chCmp_antisym a.data b.data

theorem strCmp_trans {a b c : String} (h1 : strCmp a b = -1)
    (h2 : strCmp b c = -1) : strCmp a c = -1 :=
  listCmpBy_trans chCmp chCmp_antisym (fun _ _ _ => chCmp_trans)
    (fun _ _ _ => chCmp_zerocong) a.data b.data c.data h1 h2

theorem strCmp_zerocong {a b : String} (c : String) (h : strCmp a b = 0) :
    strCmp b c = strCmp a c :=
  listCmpBy_zerocong chCmp (fun _ _ _ => chCmp_zerocong) a.data b.data c.data h

theorem listCmpBy_eq_zero (f : α → α → Int)
    (hf0 : ∀ a b, f a b = 0 → a = b) :
    ∀ as bs, listCmpBy f as bs = 0 → as = bs := by
  intro as
  induction as with
  | nil => intro bs h; cases bs <;> simp_all [listCmpBy]
  | cons a as ih =>
    intro bs h
    cases bs with
    | nil => simp [listCmpBy] at h
    | cons b bs =>
      simp only [listCmpBy] at h
      by_cases hab : f a b = 0
      · simp only [hab, if_pos] at h
        rw [hf0 a b hab, ih bs h]
      · simp [hab] at h

theorem strCmp_eq_zero {a b : String} (h : strCmp a b = 0) : a = b := by
  have := listCmpBy_eq_zero chCmp (fun _ _ => chCmp_eq_zero) a.data b.data h
  exact congrArg String.mk this

/-! ### Segment and version comparison -/

theorem normSegs_cons (a : Nat) (as : List Nat) :
    normSegs (a :: as) =
      if a = 0 ∧ normSegs as = [] then [] else a :: normSegs as := by
  rw [show normSegs (a :: as) = (match normSegs as with
        | [] => if a = 0 then [] else [a]
        | b :: bs => a :: b :: bs) from rfl]
  cases h : normSegs as with
  | nil => by_cases ha : a = 0 <;> simp [ha]
  | cons b bs => simp

theorem allZero_iff (bs : List Nat) : allZero bs = true ↔ normSegs bs = [] := by
  induction bs with
  | nil => simp [allZero, normSegs]
  | cons b bs ih =>
    rw [normSegs_cons]
    by_cases hb : b = 0
    · subst hb
      simp only [allZero]
      constructor
      · intro h
        simp only [Bool.and_eq_true, decide_eq_true_eq] at h
        simp [ih.mp h.2]
      · intro h
        by_cases hn : normSegs bs = []
        · simp [ih.mpr hn]
        · simp [hn] at h
    · simp [allZero, hb]

theorem segCmp_nil_left (bs : List Nat) :
    segCmp [] bs = listCmpBy natCmp [] (normSegs bs) := by
  rw [show segCmp [] bs = (if allZero bs then 0 else -1) from rfl]
  by_cases h : allZero bs
  · rw [if_pos h, (allZero_iff bs).mp h]
    rfl
  · rw [if_neg h]
    cases hn : normSegs bs with
    | nil => exact absurd ((allZero_iff bs).mpr hn) h
    | cons c cs => rfl

theorem segCmp_nil_right (as : List Nat) :
    segCmp as [] = listCmpBy natCmp (normSegs as) [] := by
  cases as with
  | nil => rfl
  | cons a as =>
    rw [show segCmp (a :: as) [] = (if allZero (a :: as) then 0 else 1) from rfl]
    by_cases h : allZero (a :: as)
    · rw [if_pos h, (allZero_iff (a :: as)).mp h]
      rfl
    · rw [if_neg h]
      cases hn : normSegs (a :: as) with
      | nil => exact absurd ((allZero_iff (a :: as)).mpr hn) h
      | cons c cs => rfl

theorem segCmp_norm :
    ∀ as bs, segCmp as bs = listCmpBy natCmp (normSegs as) (normSegs bs) := by
  intro as
  induction as with
  | nil => intro bs; simpa [normSegs] using segCmp_nil_left bs
  | cons a as ih =>
    intro bs
    cases bs with
    | nil => simpa [normSegs] using segCmp_nil_right (a :: as)
    | cons b bs =>
      rw [normSegs_cons, normSegs_cons]
      rcases Nat.lt_trichotomy a b with hab | hab | hab
      · have hb : ¬(b = 0 ∧ normSegs bs = []) := by
          intro hc; omega
        have h1 : segCmp (a :: as) (b :: bs) = -1 := by
          simp [segCmp, hab]
        rw [h1]
        by_cases ha : a = 0 ∧ normSegs as = []
        · simp [ha, hb, listCmpBy]
        · have hnc : natCmp a b = -1 := by unfold natCmp; simp [hab]
          simp [ha, hb, listCmpBy, hnc]
      · subst hab
        have h1 : segCmp (a :: as) (a :: bs) = segCmp as bs := by
          simp [segCmp]
        rw [h1, ih bs]
        by_cases ha : a = 0
        · subst ha
          simp only [true_and]
          cases h2 : normSegs as with
          | nil =>
            cases h3 : normSegs bs with
            | nil => simp [listCmpBy]
            | cons c cs => simp [listCmpBy]
          | cons c cs =>
            cases h3 : normSegs bs with
            | nil => simp [listCmpBy]
            | cons d ds => simp [listCmpBy, natCmp_self]
        · simp [ha, listCmpBy, natCmp_self]
      · have ha : ¬(a = 0 ∧ normSegs as = []) := by
          intro hc; omega
        have h1 : segCmp (a :: as) (b :: bs) = 1 := by
          have hnl : ¬ a < b := by omega
          simp [segCmp, hnl, hab]
        rw [h1]
        by_cases hb : b = 0 ∧ normSegs bs = []
        · simp [hb, ha, listCmpBy]
        · have hnc : natCmp a b = 1 := by
            unfold natCmp
            have hnl : ¬ a < b := by omega
            simp [hnl, hab]
          simp [ha, hb, listCmpBy, hnc]

theorem segCmp_antisym (as bs : List Nat) : segCmp as bs = -segCmp bs as := by
  rw [segCmp_norm, segCmp_norm]
  exact listCmpBy_antisym natCmp natCmp_antisym _ _

theorem segCmp_trans {as bs cs : List Nat} (h1 : segCmp as bs = -1)
    (h2 : segCmp bs cs = -1) : segCmp as cs = -1 := by
  simp only [segCmp_norm] at h1 h2 ⊢
  exact listCmpBy_trans natCmp natCmp_antisym (fun _ _ _ => natCmp_trans)
    (fun a b c h => by rw [natCmp_eq_zero h]) _ _ _ h1 h2

theorem segCmp_zerocong {as bs : List Nat} (cs : List Nat)
    (h : segCmp as bs = 0) : segCmp bs cs = segCmp as cs := by
  simp only [segCmp_norm] at h ⊢
  exact listCmpBy_zerocong natCmp (fun a b c h => by rw [natCmp_eq_zero h]) _ _ _ h

/-! Reduction lemmas for `partCmp` by parse status of the two sides. -/

theorem partCmp_ss {a b : String} {x y : Nat}
    (ha : parseNatStrict a.data = some x) (hb : parseNatStrict b.data = some y) :
    partCmp a b = natCmp x y := by
  simp [partCmp, ha, hb]

theorem partCmp_sn {a b : String} {x : Nat}
    (ha : parseNatStrict a.data = some x) (hb : parseNatStrict b.data = none) :
    partCmp a b = -1 := by
  simp [partCmp, ha, hb]

theorem partCmp_ns {a b : String} {y : Nat}
    (ha : parseNatStrict a.data = none) (hb : parseNatStrict b.data = some y) :
    partCmp a b = 1 := by
  simp [partCmp, ha, hb]

theorem partCmp_nn {a b : String}
    (ha : parseNatStrict a.data = none) (hb : parseNatStrict b.data = none) :
    partCmp a b = strCmp a b := by
  simp [partCmp, ha, hb]

theorem partCmp_antisym (a b : String) : partCmp a b = -partCmp b a := by
  cases ha : parseNatStrict a.data with
  | none =>
    cases hb : parseNatStrict b.data with
    | none => rw [partCmp_nn ha hb, partCmp_nn hb ha]; exact strCmp_antisym a b
    | some y => rw [partCmp_ns ha hb, partCmp_sn hb ha]; decide
  | some x =>
    cases hb : parseNatStrict b.data with
    | none => rw [partCmp_sn ha hb, partCmp_ns hb ha]
    | some y => rw [partCmp_ss ha hb, partCmp_ss hb ha]; exact natCmp_antisym x y

theorem partCmp_trans (a b c : String) (h1 : partCmp a b = -1)
    (h2 : partCmp b c = -1) : partCmp a c = -1 := by
  cases ha : parseNatStrict a.data with
  | none =>
    cases hb : parseNatStrict b.data with
    | none =>
      cases hc : parseNatStrict c.data with
      | none =>
        rw [partCmp_nn ha hb] at h1
        rw [partCmp_nn hb hc] at h2
        rw [partCmp_nn ha hc]
        exact strCmp_trans h1 h2
      | some z => rw [partCmp_ns hb hc] at h2; exact absurd h2 (by decide)
    | some y => rw [partCmp_ns ha hb] at h1; exact absurd h1 (by decide)
  | some x =>
    cases hc : parseNatStrict c.data with
    | none => rw [partCmp_sn ha hc]
    | some z =>
      cases hb : parseNatStrict b.data with
      | none => rw [partCmp_ns hb hc] at h2; exact absurd h2 (by decide)
      | some y =>
        rw [partCmp_ss ha hb] at h1
        rw [partCmp_ss hb hc] at h2
        rw [partCmp_ss ha hc]
        exact natCmp_trans h1 h2

theorem partCmp_zerocong (a b c : String) (h : partCmp a b = 0) :
    partCmp b c = partCmp a c := by
  cases ha : parseNatStrict a.data with
  | none =>
    cases hb : parseNatStrict b.data with
    | none =>
      rw [partCmp_nn ha hb] at h
      rw [strCmp_eq_zero h]
    | some y => rw [partCmp_ns ha hb] at h; exact absurd h (by decide)
  | some x =>
    cases hb : parseNatStrict b.data with
    | none => rw [partCmp_sn ha hb] at h; exact absurd h (by decide)
    | some y =>
      rw [partCmp_ss ha hb] at h
      have hxy : x = y := natCmp_eq_zero h
      subst hxy
      cases hc : parseNatStrict c.data with
      | none => rw [partCmp_sn ha hc, partCmp_sn hb hc]
      | some z => rw [partCmp_ss ha hc, partCmp_ss hb hc]

theorem preCmp_antisym (a b : List String) : preCmp a b = -preCmp b a := by
  cases a with
  | nil =>
    cases b with
    | nil => rfl
    | cons y ys => exact (by decide : (1 : Int) = -(-1))
  | cons x xs =>
    cases b with
    | nil => exact (by decide : (-1 : Int) = -1)
    | cons y ys =>
      show listCmpBy partCmp (x :: xs) (y :: ys)
        = -listCmpBy partCmp (y :: ys) (x :: xs)
      exact listCmpBy_antisym partCmp partCmp_antisym _ _

theorem preCmp_trans (a b c : List String) (h1 : preCmp a b = -1)
    (h2 : preCmp b c = -1) : preCmp a c = -1 := by
  cases a with
  | nil =>
    cases b with
    | nil => exact absurd h1 ((by decide : ¬((0 : Int) = -1)))
    | cons y ys => exact absurd h1 ((by decide : ¬((1 : Int) = -1)))
  | cons x xs =>
    cases c with
    | nil => rfl
    | cons z zs =>
      cases b with
      | nil => exact absurd h2 ((by decide : ¬((1 : Int) = -1)))
      | cons y ys =>
        show listCmpBy partCmp (x :: xs) (z :: zs) = -1
        exact listCmpBy_trans partCmp partCmp_antisym partCmp_trans
          partCmp_zerocong _ _ _ h1 h2

theorem preCmp_zerocong (a b c : List String) (h : preCmp a b = 0) :
    preCmp b c = preCmp a c := by
  cases a with
  | nil =>
    cases b with
    | nil => rfl
    | cons y ys => exact absurd h ((by decide : ¬((1 : Int) = 0)))
  | cons x xs =>
    cases b with
    | nil => exact absurd h ((by decide : ¬((-1 : Int) = 0)))
    | cons y ys =>
      cases c with
      | nil => rfl
      | cons z zs =>
        show listCmpBy partCmp (y :: ys) (z :: zs)
          = listCmpBy partCmp (x :: xs) (z :: zs)
        exact listCmpBy_zerocong partCmp partCmp_zerocong _ _ _ h

theorem goVersionCmp_antisym (v w : GoVersion) :
    goVersionCmp v w = -goVersionCmp w v := by
  unfold goVersionCmp
  have hs := segCmp_antisym v.segments w.segments
  by_cases h : segCmp v.segments w.segments = 0
  · have h2 : segCmp w.segments v.segments = 0 := by omega
    rw [if_pos h, if_pos h2]
    exact preCmp_antisym _ _
  · have h2 : ¬segCmp w.segments v.segments = 0 := by omega
    rw [if_neg h, if_neg h2]
    omega

theorem goVersionCmp_trans (u v w : GoVersion)
    (h1 : goVersionCmp u v = -1) (h2 : goVersionCmp v w = -1) :
    goVersionCmp u w = -1 := by
  unfold goVersionCmp at h1 h2 ⊢
  by_cases huv : segCmp u.segments v.segments = 0
  · by_cases hvw : segCmp v.segments w.segments = 0
    · have huw : segCmp u.segments w.segments = 0 := by
        rw [← segCmp_zerocong w.segments huv]; exact hvw
      rw [if_pos huv] at h1
      rw [if_pos hvw] at h2
      rw [if_pos huw]
      exact preCmp_trans _ _ _ h1 h2
    · have huw : segCmp u.segments w.segments = -1 := by
        rw [← segCmp_zerocong w.segments huv]
        rw [if_neg hvw] at h2
        exact h2
      rw [if_neg (by rw [huw]; decide), huw]
  · rw [if_neg huv] at h1
    by_cases hvw : segCmp v.segments w.segments = 0
    · have hwv : segCmp w.segments v.segments = 0 := by
        have := segCmp_antisym v.segments w.segments; omega
      have huw : segCmp u.segments w.segments = -1 := by
        have e1 := segCmp_antisym u.segments v.segments
        have e2 := segCmp_antisym u.segments w.segments
        have e3 := segCmp_zerocong u.segments hwv
        omega
      rw [if_neg (by rw [huw]; decide), huw]
    · rw [if_neg hvw] at h2
      have huw : segCmp u.segments w.segments = -1 := segCmp_trans h1 h2
      rw [if_neg (by rw [huw]; decide), huw]

/-! ### `compareVersions` regimes -/

theorem goVersionCmp_refl (v : GoVersion) : goVersionCmp v v = 0 := by
  have := goVersionCmp_antisym v v; omega

theorem listCmpBy_range (f : α → α → Int)
    (hf : ∀ a b, f a b = -1 ∨ f a b = 0 ∨ f a b = 1) :
    ∀ as bs, listCmpBy f as bs = -1 ∨ listCmpBy f as bs = 0 ∨
      listCmpBy f as bs = 1 := by
  intro as
  induction as with
  | nil => intro bs; cases bs <;> simp [listCmpBy]
  | cons a as ih =>
    intro bs
    cases bs with
    | nil => simp [listCmpBy]
    | cons b bs =>
      simp only [listCmpBy]
      by_cases h : f a b = 0
      · simp [h, ih bs]
      · have := hf a b
        simp only [h, if_neg, ite_false]
        tauto

theorem natCmp_range (a b : Nat) :
    natCmp a b = -1 ∨ natCmp a b = 0 ∨ natCmp a b = 1 := by
  unfold natCmp; split_ifs <;> simp

theorem strCmp_range (a b : String) :
    strCmp a b = -1 ∨ strCmp a b = 0 ∨ strCmp a b = 1 :=
  listCmpBy_range chCmp (fun a b => natCmp_range a.toNat b.toNat) a.data b.data

theorem partCmp_range (a b : String) :
    partCmp a b = -1 ∨ partCmp a b = 0 ∨ partCmp a b = 1 := by
  cases ha : parseNatStrict a.data with
  | none =>
    cases hb : parseNatStrict b.data with
    | none => rw [partCmp_nn ha hb]; exact strCmp_range a b
    | some y => rw [partCmp_ns ha hb]; simp
  | some x =>
    cases hb : parseNatStrict b.data with
    | none => rw [partCmp_sn ha hb]; simp
    | some y => rw [partCmp_ss ha hb]; exact natCmp_range x y

theorem preCmp_range (a b : List String) :
    preCmp a b = -1 ∨ preCmp a b = 0 ∨ preCmp a b = 1 := by
  cases a with
  | nil => cases b <;> simp [preCmp]
  | cons x xs =>
    cases b with
    | nil => simp [preCmp]
    | cons y ys =>
      show listCmpBy partCmp (x :: xs) (y :: ys) = -1 ∨ _ ∨ _
      exact listCmpBy_range partCmp partCmp_range _ _

theorem segCmp_range (as bs : List Nat) :
    segCmp as bs = -1 ∨ segCmp as bs = 0 ∨ segCmp as bs = 1 := by
  rw [segCmp_norm]
  exact listCmpBy_range natCmp natCmp_range _ _

theorem goVersionCmp_range (v w : GoVersion) :
    goVersionCmp v w = -1 ∨ goVersionCmp v w = 0 ∨ goVersionCmp v w = 1 := by
  unfold goVersionCmp
  by_cases h : segCmp v.segments w.segments = 0
  · rw [if_pos h]; exact preCmp_range _ _
  · rw [if_neg h]
    rcases segCmp_range v.segments w.segments with h1 | h1 | h1 <;> simp [h1]

theorem goVersionCmp_zerocong (u v w : GoVersion)
    (h : goVersionCmp u v = 0) : goVersionCmp v w = goVersionCmp u w := by
  unfold goVersionCmp at h ⊢
  by_cases huv : segCmp u.segments v.segments = 0
  · rw [if_pos huv] at h
    have hsw : segCmp v.segments w.segments = segCmp u.segments w.segments :=
      segCmp_zerocong w.segments huv
    rw [hsw]
    by_cases hw : segCmp u.segments w.segments = 0
    · rw [if_pos hw, if_pos hw]
      exact preCmp_zerocong _ _ _ h
    · rw [if_neg hw, if_neg hw]
  · rw [if_neg huv] at h
    exact absurd h huv

theorem goVersionCmp_le_trans (u v w : GoVersion)
    (h1 : goVersionCmp u v ≤ 0) (h2 : goVersionCmp v w ≤ 0) :
    goVersionCmp u w ≤ 0 := by
  rcases goVersionCmp_range u v with r1 | r1 | r1
  · rcases goVersionCmp_range v w with r2 | r2 | r2
    · have := goVersionCmp_trans u v w r1 r2; omega
    · have ha := goVersionCmp_antisym u v
      have hb := goVersionCmp_antisym u w
      have hc := goVersionCmp_antisym v w
      have hwv : goVersionCmp w v = 0 := by omega
      have := goVersionCmp_zerocong w v u hwv
      omega
    · omega
  · have := goVersionCmp_zerocong u v w r1
    omega
  · omega

theorem compareVersions_both {a b : String} {va vb : GoVersion}
    (ha : version_NewVersion a = some va) (hb : version_NewVersion b = some vb) :
    compareVersions a b = goVersionCmp va vb := by
  simp [compareVersions, ha, hb]

theorem compareVersions_fallback {a b : String}
    (h : version_NewVersion a = none ∨ version_NewVersion b = none) :
    compareVersions a b = strCmp a b := by
  unfold compareVersions
  rcases h with h | h
  · rw [h]
  · rw [h]
    cases version_NewVersion a <;> rfl

theorem compareVersions_antisym (a b : String) :
    compareVersions a b = -compareVersions b a := by
  cases ha : version_NewVersion a with
  | none =>
    rw [compareVersions_fallback (Or.inl ha),
      compareVersions_fallback (Or.inr ha)]
    exact strCmp_antisym a b
  | some va =>
    cases hb : version_NewVersion b with
    | none =>
      rw [compareVersions_fallback (Or.inr hb),
        compareVersions_fallback (Or.inl hb)]
      exact strCmp_antisym a b
    | some vb =>
      rw [compareVersions_both ha hb, compareVersions_both hb ha]
      exact goVersionCmp_antisym va vb

/-! ### Maximality of `findMaxVersion` -/

theorem maxPair_mem :
    ∀ (rest : List (String × GoVersion)) (p0), maxPair p0 rest ∈ p0 :: rest := by
  intro rest
  induction rest with
  | nil => intro p0; simp [maxPair]
  | cons q rest ih =>
    intro p0
    unfold maxPair at ih ⊢
    simp only [List.foldl_cons]
    by_cases h : goVersionCmp p0.2 q.2 < 0
    · rw [if_pos h]
      have := ih q
      simp only [List.mem_cons] at this ⊢
      tauto
    · rw [if_neg h]
      have := ih p0
      simp only [List.mem_cons] at this ⊢
      tauto

theorem maxPair_max :
    ∀ (rest : List (String × GoVersion)) (p0) (q : String × GoVersion),
      q ∈ p0 :: rest → goVersionCmp q.2 (maxPair p0 rest).2 ≤ 0 := by
  intro rest
  induction rest with
  | nil =>
    intro p0 q hq
    simp at hq
    subst hq
    simp [maxPair, goVersionCmp_refl]
  | cons r rest ih =>
    intro p0 q hq
    have step : maxPair p0 (r :: rest)
        = maxPair (if goVersionCmp p0.2 r.2 < 0 then r else p0) rest := by
      unfold maxPair
      simp only [List.foldl_cons]
    rw [step]
    set m := if goVersionCmp p0.2 r.2 < 0 then r else p0 with hm
    rcases List.mem_cons.mp hq with hq | hq
    · subst hq
      by_cases h : goVersionCmp q.2 r.2 < 0
      · rw [hm]
        have hr : goVersionCmp r.2 (maxPair (if goVersionCmp q.2 r.2 < 0 then r else q) rest).2 ≤ 0 := by
          rw [if_pos h]
          exact ih r r (List.mem_cons_self r rest)
        rw [if_pos h] at hr ⊢
        have hqr : goVersionCmp q.2 r.2 ≤ 0 := by omega
        exact goVersionCmp_le_trans _ _ _ hqr hr
      · rw [hm, if_neg h]
        exact ih q q (List.mem_cons_self q rest)
    · rcases List.mem_cons.mp hq with hq2 | hq2
      · subst hq2
        by_cases h : goVersionCmp p0.2 q.2 < 0
        · rw [hm, if_pos h]
          exact ih q q (List.mem_cons_self q rest)
        · rw [hm, if_neg h]
          have hp : goVersionCmp p0.2 (maxPair p0 rest).2 ≤ 0 :=
            ih p0 p0 (List.mem_cons_self p0 rest)
          have hqp : goVersionCmp q.2 p0.2 ≤ 0 := by
            have := goVersionCmp_antisym p0.2 q.2
            have := goVersionCmp_range p0.2 q.2
            omega
          exact goVersionCmp_le_trans _ _ _ hqp hp
      · exact ih m q (List.mem_cons_of_mem m hq2)

theorem parsePairs_mem {l : List String} {x : String} {v : GoVersion} :
    (x, v) ∈ parsePairs l ↔ x ∈ l ∧ version_NewVersion x = some v := by
  unfold parsePairs
  rw [List.mem_filterMap]
  constructor
  · rintro ⟨a, ha, hfa⟩
    cases hp : version_NewVersion a with
    | none => rw [hp] at hfa; simp at hfa
    | some w =>
      rw [hp] at hfa
      simp at hfa
      obtain ⟨rfl, rfl⟩ := hfa
      exact ⟨ha, hp⟩
  · rintro ⟨hx, hp⟩
    exact ⟨x, hx, by rw [hp]; rfl⟩

/-- The core maximality fact about `findMaxVersion`: a successful result
is one of the input tokens, it parses, and its parsed version dominates
every parsed input token. -/
theorem findMaxVersion_spec {l : List String} {r : String}
    (h : findMaxVersion l = .ok r) :
    r ∈ l ∧ ∃ vr, version_NewVersion r = some vr ∧
      ∀ s ∈ l, ∀ vs, version_NewVersion s = some vs →
        goVersionCmp vs vr ≤ 0 := by
  unfold findMaxVersion at h
  by_cases hl : l = []
  · simp [hl] at h
  · rw [if_neg hl] at h
    cases hp : parsePairs l with
    | nil => rw [hp] at h; simp at h
    | cons p0 rest =>
      rw [hp] at h
      simp only [Except.ok.injEq] at h
      have hmem : maxPair p0 rest ∈ p0 :: rest := maxPair_mem rest p0
      rw [← hp] at hmem
      have hmm : (maxPair p0 rest).1 ∈ l ∧
          version_NewVersion (maxPair p0 rest).1 = some (maxPair p0 rest).2 := by
        have : ((maxPair p0 rest).1, (maxPair p0 rest).2) ∈ parsePairs l := hmem
        exact parsePairs_mem.mp this
      subst h
      refine ⟨hmm.1, (maxPair p0 rest).2, hmm.2, ?_⟩
      intro s hs vs hvs
      have hsp : (s, vs) ∈ parsePairs l := parsePairs_mem.mpr ⟨hs, hvs⟩
      rw [hp] at hsp
      exact maxPair_max rest p0 (s, vs) hsp

theorem parsePairs_filter (l : List String) :
    parsePairs (l.filter fun t => (version_NewVersion t).isSome) = parsePairs l := by
  unfold parsePairs
  induction l with
  | nil => rfl
  | cons a l ih =>
    by_cases ha : (version_NewVersion a).isSome
    · simp only [List.filter_cons, ha, if_pos, List.filterMap_cons]
      cases hp : version_NewVersion a with
      | none => rw [hp] at ha; simp at ha
      | some v => simp [ih]
    · simp only [List.filter_cons, ha, if_neg, List.filterMap_cons]
      cases hp : version_NewVersion a with
      | none => simp [ih]
      | some v => rw [hp] at ha; simp at ha

theorem parsePairs_eq_nil {l : List String} :
    parsePairs l = [] ↔ ∀ t ∈ l, version_NewVersion t = none := by
  unfold parsePairs
  rw [List.filterMap_eq_nil_iff]
  constructor
  · intro h t ht
    have := h t ht
    cases hp : version_NewVersion t with
    | none => rfl
    | some v => rw [hp] at this; simp at this
  · intro h t ht
    rw [h t ht]; rfl

theorem listCmpBy_refl (f : α → α → Int) (hf : ∀ a, f a a = 0) :
    ∀ as, listCmpBy f as as = 0 := by
  intro as
  induction as with
  | nil => rfl
  | cons a as ih => simp [listCmpBy, hf a, ih]

theorem strCmp_refl (a : String) : strCmp a a = 0 :=
  listCmpBy_refl chCmp (fun c => natCmp_self c.toNat) a.data

/-- Lifting of `findMaxVersion_spec` through `findLatestVersion`. -/
theorem findLatestVersion_spec {keys : List String} {pfx file k r : String}
    (h : findLatestVersion keys pfx file = .ok (k, r)) :
    r ∈ filterVersionTokens keys file ∧ k = goJoin3 pfx r file ∧
    ∃ vr, version_NewVersion r = some vr ∧
      ∀ s ∈ filterVersionTokens keys file, ∀ vs,
        version_NewVersion s = some vs → goVersionCmp vs vr ≤ 0 := by
  unfold findLatestVersion at h
  by_cases ht : filterVersionTokens keys file = []
  · rw [if_pos ht] at h
    exact Except.noConfusion h
  · rw [if_neg ht] at h
    cases hm : findMaxVersion (filterVersionTokens keys file) with
    | error e => rw [hm] at h; exact Except.noConfusion h
    | ok latest =>
      rw [hm] at h
      simp only [Except.ok.injEq, Prod.mk.injEq] at h
      obtain ⟨hk, hr⟩ := h
      subst hr
      obtain ⟨hmem, vr, hvr, hdom⟩ := findMaxVersion_spec hm
      exact ⟨hmem, hk.symm, vr, hvr, hdom⟩

/-! ### Claim C2 -/

/-- C2: a successfully resolved version is a filtered token that parses
and whose parsed form is maximal among all parseable filtered tokens
(numeric, not lexicographic, ordering); in particular, when both `v9` and
`v10` are among the filtered tokens the result is never `v9` and ranks at
least `10.0.0`, and on the two-token `v9`/`v10` store the resolver picks
`v10`. -/
theorem C2_resolution_selects_numeric_max :
    (∀ (keys : List String) (pfx file k r : String),
      findLatestVersion keys pfx file = .ok (k, r) →
      r ∈ filterVersionTokens keys file ∧ k = goJoin3 pfx r file ∧
      ∃ vr, version_NewVersion r = some vr ∧
        ∀ s ∈ filterVersionTokens keys file, ∀ vs,
          version_NewVersion s = some vs → goVersionCmp vs vr ≤ 0) ∧
    (∀ (keys : List String) (pfx file k r : String),
      "v9" ∈ filterVersionTokens keys file →
      "v10" ∈ filterVersionTokens keys file →
      findLatestVersion keys pfx file = .ok (k, r) →
      r ≠ "v9" ∧ ∃ vr, version_NewVersion r = some vr ∧
        goVersionCmp ⟨[10], []⟩ vr ≤ 0) ∧
    findLatestVersion ["schemas/v9/schema.sql", "schemas/v10/schema.sql"]
      "schemas/" "schema.sql" = .ok ("schemas/v10/schema.sql", "v10") := by
  refine ⟨fun keys pfx file k r h => findLatestVersion_spec h, ?_, rfl⟩
  intro keys pfx file k r h9 h10 h
  obtain ⟨hmem, hk, vr, hvr, hdom⟩ := findLatestVersion_spec h
  have h10p : version_NewVersion "v10" = some ⟨[10], []⟩ := rfl
  have hd10 : goVersionCmp ⟨[10], []⟩ vr ≤ 0 := hdom "v10" h10 ⟨[10], []⟩ h10p
  refine ⟨?_, vr, hvr, hd10⟩
  intro hr9
  subst hr9
  have h9p : version_NewVersion "v9" = some ⟨[9], []⟩ := rfl
  rw [h9p] at hvr
  have hvr9 : vr = ⟨[9], []⟩ := by
    cases hvr
    rfl
  rw [hvr9] at hd10
  exact absurd hd10 (by decide)

/-- Closed instance of C2 at a concrete store. -/
theorem C2_witness :
    findLatestVersion ["schemas/v9/schema.sql", "schemas/v10/schema.sql"]
        "schemas/" "schema.sql" = .ok ("schemas/v10/schema.sql", "v10") ∧
    ("v10" : String) ≠ "v9" := by
  constructor
  · exact C2_resolution_selects_numeric_max.2.2
  · exact (C2_resolution_selects_numeric_max.2.1
      ["schemas/v9/schema.sql", "schemas/v10/schema.sql"] "schemas/"
      "schema.sql" "schemas/v10/schema.sql" "v10" (by decide) (by decide)
      C2_resolution_selects_numeric_max.2.2).1

/-! ### Claim C3 -/

/-- C3: when at least one token parses, `findMaxVersion` succeeds and its
result is computed from the parseable tokens alone; it fails exactly when
the token set is empty or no token parses. -/
theorem C3_unparseable_dropped :
    (∀ toks : List String,
      (∃ t ∈ toks, (version_NewVersion t).isSome) →
      (∃ r, findMaxVersion toks = .ok r) ∧
      findMaxVersion toks =
        findMaxVersion (toks.filter fun t => (version_NewVersion t).isSome)) ∧
    (∀ toks : List String,
      (∃ e, findMaxVersion toks = .error e) ↔
      (toks = [] ∨ ∀ t ∈ toks, version_NewVersion t = none)) := by
  constructor
  · rintro toks ⟨t, ht, hsome⟩
    cases hp : version_NewVersion t with
    | none => rw [hp] at hsome; simp at hsome
    | some v =>
      have htoks : toks ≠ [] := by
        intro h; subst h; simp at ht
      have hpair : (t, v) ∈ parsePairs toks := parsePairs_mem.mpr ⟨ht, hp⟩
      have hfil : t ∈ toks.filter fun t => (version_NewVersion t).isSome := by
        rw [List.mem_filter]
        exact ⟨ht, by rw [hp]; rfl⟩
      have hfilne : (toks.filter fun t => (version_NewVersion t).isSome) ≠ [] := by
        intro h; rw [h] at hfil; simp at hfil
      unfold findMaxVersion
      rw [if_neg htoks, if_neg hfilne, parsePairs_filter]
      cases hpp : parsePairs toks with
      | nil => rw [hpp] at hpair; simp at hpair
      | cons p0 rest => exact ⟨⟨_, rfl⟩, rfl⟩
  · intro toks
    constructor
    · rintro ⟨e, he⟩
      unfold findMaxVersion at he
      by_cases htoks : toks = []
      · exact Or.inl htoks
      · rw [if_neg htoks] at he
        cases hpp : parsePairs toks with
        | nil => exact Or.inr (parsePairs_eq_nil.mp hpp)
        | cons p0 rest =>
          rw [hpp] at he
          exact Except.noConfusion he
    · intro h
      rcases h with h | h
      · exact ⟨"no versions provided", by rw [h]; rfl⟩
      · unfold findMaxVersion
        by_cases htoks : toks = []
        · exact ⟨"no versions provided", by rw [if_pos htoks]⟩
        · rw [if_neg htoks, parsePairs_eq_nil.mpr h]
          exact ⟨"no valid versions found", rfl⟩

/-- Closed instance of C3: one invalid and one valid token. -/
theorem C3_witness :
    (∃ r, findMaxVersion ["invalid", "v1"] = .ok r) ∧
    findMaxVersion ["invalid", "v1"] =
      findMaxVersion (["invalid", "v1"].filter
        fun t => (version_NewVersion t).isSome) ∧
    findMaxVersion ["invalid1", "invalid2"] = .error "no valid versions found" := by
  refine ⟨(C3_unparseable_dropped.1 ["invalid", "v1"] ?_).1,
    (C3_unparseable_dropped.1 ["invalid", "v1"] ?_).2, ?_⟩
  · exact ⟨"v1", by decide, by decide⟩
  · exact ⟨"v1", by decide, by decide⟩
  · rfl

/-! ### Claim C4 -/

/-- C4 (counterexample): `compareVersions` is not a strict total order on
version strings: `"9" > "3.x" > "10"` by the lexicographic fallback while
`"9" < "10"` numerically (transitivity fails across the regimes), and the
distinct strings `"v1"` and `"1"` compare equal (antisymmetry as string
identity fails). -/
theorem C4_counterexample :
    compareVersions "9" "10" = -1 ∧
    compareVersions "9" "3.x" = 1 ∧
    compareVersions "3.x" "10" = 1 ∧
    compareVersions "v1" "1" = 0 ∧ ("v1" : String) ≠ "1" :=
  ⟨rfl, rfl, rfl, rfl, by decide⟩

/-- C4 (amended): `compareVersions` agrees in sign with the parsed
version order when both inputs parse and with byte-wise string order when
either fails to parse; it is antisymmetric and reflexive, and transitive
on triples lying within a single regime (all three parseable, or the
endpoints unparseable so every pair falls back to string order) — but it
is not a strict total order on strings, as the counterexample shows. -/
theorem C4_compareVersions_regimes :
    (∀ (a b : String) (va vb : GoVersion), version_NewVersion a = some va →
      version_NewVersion b = some vb →
      compareVersions a b = goVersionCmp va vb) ∧
    (∀ a b : String,
      (version_NewVersion a = none ∨ version_NewVersion b = none) →
      compareVersions a b = strCmp a b) ∧
    (∀ a b : String, compareVersions a b = -compareVersions b a) ∧
    (∀ a : String, compareVersions a a = 0) ∧
    (∀ a b c : String, (version_NewVersion a).isSome →
      (version_NewVersion b).isSome → (version_NewVersion c).isSome →
      compareVersions a b = -1 → compareVersions b c = -1 →
      compareVersions a c = -1) ∧
    (∀ a b c : String, version_NewVersion a = none →
      version_NewVersion c = none →
      compareVersions a b = -1 → compareVersions b c = -1 →
      compareVersions a c = -1) := by
  refine ⟨fun a b va vb ha hb => compareVersions_both ha hb,
    fun a b h => compareVersions_fallback h,
    compareVersions_antisym, ?_, ?_, ?_⟩
  · intro a
    cases ha : version_NewVersion a with
    | none => rw [compareVersions_fallback (Or.inl ha)]; exact strCmp_refl a
    | some va => rw [compareVersions_both ha ha]; exact goVersionCmp_refl va
  · intro a b c hsa hsb hsc h1 h2
    cases ha : version_NewVersion a with
    | none => rw [ha] at hsa; simp at hsa
    | some va =>
      cases hb : version_NewVersion b with
      | none => rw [hb] at hsb; simp at hsb
      | some vb =>
        cases hc : version_NewVersion c with
        | none => rw [hc] at hsc; simp at hsc
        | some vc =>
          rw [compareVersions_both ha hb] at h1
          rw [compareVersions_both hb hc] at h2
          rw [compareVersions_both ha hc]
          exact goVersionCmp_trans va vb vc h1 h2
  · intro a b c ha hc h1 h2
    rw [compareVersions_fallback (Or.inl ha)] at h1
    rw [compareVersions_fallback (Or.inr hc)] at h2
    rw [compareVersions_fallback (Or.inl ha)]
    exact strCmp_trans h1 h2

/-- Closed instance of the amended C4: numeric transitivity on
`v1 < v2 < v10` and fallback transitivity on unparseable endpoints. -/
theorem C4_amended_witness :
    compareVersions "v1" "v10" = -1 ∧ compareVersions "abc" "def" = -1 := by
  constructor
  · exact C4_compareVersions_regimes.2.2.2.2.1 "v1" "v2" "v10"
      (by decide) (by decide) (by decide) (by decide) (by decide)
  · exact C4_compareVersions_regimes.2.2.2.2.2 "abc" "abd" "def"
      (by decide) (by decide) (by decide) (by decide)

/-! ### Stage equations for `runSync` -/

theorem resolveLatest_ok {cfg : Config} {env : CycleEnv} {keys : List String}
    {k v : String} (hlist : env.listObjects = .ok keys)
    (hfind : findLatestVersion keys cfg.pathPfx cfg.schemaFile = .ok (k, v)) :
    resolveLatest cfg env = .ok (k, v) := by
  unfold resolveLatest
  rw [hlist]
  exact hfind

theorem runSync_resolve_error {cfg : Config} {env : CycleEnv} {e : String}
    (st : SyncState) (h : resolveLatest cfg env = .error e) :
    runSync cfg env st =
      (.error ("failed to find latest schema: " ++ e),
       { st with consecutiveFailureCount := st.consecutiveFailureCount + 1 },
       Effect.listObjects ::
         (if maxConsecutiveFailures ≤ st.consecutiveFailureCount + 1 then
            [Effect.hookCall "on-s3-fetch-error" cfg.onS3FetchError
              { baseHookEnv cfg with error := e }]
          else [])) := by
  unfold runSync
  rw [h]

theorem runSync_resolve_ok {cfg : Config} {env : CycleEnv} {k v : String}
    (st : SyncState) (h : resolveLatest cfg env = .ok (k, v)) :
    runSync cfg env st =
      ((syncAfterResolve cfg env { st with consecutiveFailureCount := 0 } k v).1,
       (syncAfterResolve cfg env { st with consecutiveFailureCount := 0 } k v).2.1,
       Effect.listObjects ::
         (syncAfterResolve cfg env { st with consecutiveFailureCount := 0 } k v).2.2) := by
  unfold runSync
  rw [h]

theorem syncAfterResolve_skip (cfg : Config) (env : CycleEnv) (st : SyncState)
    (key ver : String)
    (h : st.lastAppliedVersion ≠ "" ∧ compareVersions ver st.lastAppliedVersion ≤ 0) :
    syncAfterResolve cfg env st key ver = (.ok (), st, []) := by
  unfold syncAfterResolve
  rw [if_pos h]

theorem syncAfterResolve_continue {cfg : Config} {env : CycleEnv} {st : SyncState}
    {key ver : String}
    (h : ¬(st.lastAppliedVersion ≠ "" ∧ compareVersions ver st.lastAppliedVersion ≤ 0)) :
    syncAfterResolve cfg env st key ver = syncMarkerStep cfg env st key ver := by
  unfold syncAfterResolve
  rw [if_neg h]

theorem syncMarkerStep_none {cfg : Config} {env : CycleEnv} {st : SyncState}
    {key ver : String} (h : cfg.completedFile = "") :
    syncMarkerStep cfg env st key ver = syncDownloadStep cfg env st key ver := by
  unfold syncMarkerStep
  rw [if_neg (by simp [h])]

theorem syncMarkerStep_exists {cfg : Config} {env : CycleEnv} {st : SyncState}
    {key ver : String} (hcf : cfg.completedFile ≠ "")
    (hm : checkCompletionMarker env.headMarker = .ok true) :
    syncMarkerStep cfg env st key ver =
      (.ok (), { st with lastAppliedVersion := ver },
       [Effect.headObject (buildCompletionMarkerKey key cfg.completedFile)]) := by
  unfold syncMarkerStep
  rw [if_pos hcf, hm]

theorem syncMarkerStep_continue {cfg : Config} {env : CycleEnv} {st : SyncState}
    {key ver : String} (hcf : cfg.completedFile ≠ "")
    (hm : checkCompletionMarker env.headMarker ≠ .ok true) :
    syncMarkerStep cfg env st key ver =
      ((syncDownloadStep cfg env st key ver).1,
       (syncDownloadStep cfg env st key ver).2.1,
       Effect.headObject (buildCompletionMarkerKey key cfg.completedFile) ::
         (syncDownloadStep cfg env st key ver).2.2) := by
  unfold syncMarkerStep
  rw [if_pos hcf]
  cases hc : checkCompletionMarker env.headMarker with
  | error e => rfl
  | ok b =>
    cases b with
    | false => rfl
    | true => exact absurd hc hm

theorem syncDownloadStep_error {cfg : Config} {env : CycleEnv} {st : SyncState}
    {key ver : String} {e : String} (h : env.getObject = .error e) :
    syncDownloadStep cfg env st key ver =
      (.error ("failed to download schema: " ++ e),
       { st with consecutiveFailureCount := st.consecutiveFailureCount + 1 },
       Effect.getObject key ::
         (if maxConsecutiveFailures ≤ st.consecutiveFailureCount + 1 then
            [Effect.hookCall "on-s3-fetch-error" cfg.onS3FetchError
              { baseHookEnv cfg with version := ver, error := e }]
          else [])) := by
  unfold syncDownloadStep
  rw [h]

theorem syncDownloadStep_ok {cfg : Config} {env : CycleEnv} {st : SyncState}
    {key ver : String} {schema : String} (h : env.getObject = .ok schema) :
    syncDownloadStep cfg env st key ver =
      ((syncLockStep cfg env st key ver).1,
       (syncLockStep cfg env st key ver).2.1,
       Effect.getObject key :: (syncLockStep cfg env st key ver).2.2) := by
  unfold syncDownloadStep
  rw [h]

theorem syncLockStep_skip {cfg : Config} {env : CycleEnv} {st : SyncState}
    {key ver : String} (h : cfg.skipLock = true) :
    syncLockStep cfg env st key ver = syncApplyStep cfg env st key ver [] := by
  unfold syncLockStep
  rw [h]
  rfl

theorem syncLockStep_acquired {cfg : Config} {env : CycleEnv} {st : SyncState}
    {key ver : String} (h : cfg.skipLock = false)
    (hconn : env.lockConnect = .ok ()) (htry : env.tryLock = .ok true) :
    syncLockStep cfg env st key ver =
      ((syncApplyStep cfg env st key ver [Effect.unlock, Effect.lockClose]).1,
       (syncApplyStep cfg env st key ver [Effect.unlock, Effect.lockClose]).2.1,
       Effect.lockConnect :: Effect.tryLock ::
         (syncApplyStep cfg env st key ver [Effect.unlock, Effect.lockClose]).2.2) := by
  unfold syncLockStep
  rw [h, hconn, htry]
  rfl

theorem syncApplyStep_failed {cfg : Config} {env : CycleEnv} {st : SyncState}
    {key ver : String} {res : ApplyResult} {emsg : String}
    (dfx : List Effect) (h : env.applyOutcome = .ran res (some emsg)) :
    syncApplyStep cfg env st key ver dfx =
      (.error ("failed to apply schema: " ++ emsg), st,
       [Effect.differDryRun,
        Effect.hookCall "on-before-apply" cfg.onBeforeApply
          { baseHookEnv cfg with version := ver, dryRun := env.dryRun.1 },
        Effect.differApply,
        Effect.hookCall "on-apply-failed" cfg.onApplyFailed
          { baseHookEnv cfg with
            version := ver
            error := emsg
            stdout := res.stdout
            stderr := res.stderr }] ++ dfx) := by
  unfold syncApplyStep
  rw [h]
  rfl

theorem syncApplyStep_ok {cfg : Config} {env : CycleEnv} {st : SyncState}
    {key ver : String} {res : ApplyResult}
    (dfx : List Effect) (h : env.applyOutcome = .ran res none) :
    syncApplyStep cfg env st key ver dfx =
      (.ok (), { st with lastAppliedVersion := ver },
       [Effect.differDryRun,
        Effect.hookCall "on-before-apply" cfg.onBeforeApply
          { baseHookEnv cfg with version := ver, dryRun := env.dryRun.1 },
        Effect.differApply] ++
       (if cfg.exportAfterApply then
          Effect.differExport ::
            (match env.exportSchema with
             | .error _ => []
             | .ok _ => [Effect.putObject (buildExportedSchemaKey key)])
        else []) ++
       (if cfg.completedFile ≠ "" then
          [Effect.putObject (buildCompletionMarkerKey key cfg.completedFile)]
        else []) ++
       [Effect.hookCall "on-apply-succeeded" cfg.onApplySucceeded
          { baseHookEnv cfg with version := ver }] ++ dfx) := by
  unfold syncApplyStep
  rw [h]

/-- A cycle that passes the guard, marker, download and lock steps runs
the apply phase: its outcome and state are those of `syncApplyStep`, and
the effects before the apply phase are only listing, marker probe,
download and lock effects. -/
theorem runSync_reaches_apply {cfg : Config} {env : CycleEnv} {st : SyncState}
    {keys : List String} {k v : String}
    (hlist : env.listObjects = .ok keys)
    (hfind : findLatestVersion keys cfg.pathPfx cfg.schemaFile = .ok (k, v))
    (hguard : st.lastAppliedVersion = "" ∨ 0 < compareVersions v st.lastAppliedVersion)
    (hmk : cfg.completedFile = "" ∨ checkCompletionMarker env.headMarker ≠ .ok true)
    (hget : ∃ schema, env.getObject = .ok schema)
    (hlock : cfg.skipLock = false →
      env.lockConnect = .ok () ∧ env.tryLock = .ok true) :
    ∃ fx1 dfx,
      (∀ e ∈ fx1, e = Effect.listObjects ∨
        e = Effect.headObject (buildCompletionMarkerKey k cfg.completedFile) ∨
        e = Effect.getObject k ∨ e = Effect.lockConnect ∨ e = Effect.tryLock) ∧
      (∀ e ∈ dfx, e = Effect.unlock ∨ e = Effect.lockClose) ∧
      runSync cfg env st =
        ((syncApplyStep cfg env { st with consecutiveFailureCount := 0 } k v dfx).1,
         (syncApplyStep cfg env { st with consecutiveFailureCount := 0 } k v dfx).2.1,
         fx1 ++ (syncApplyStep cfg env { st with consecutiveFailureCount := 0 } k v dfx).2.2) := by
  obtain ⟨schema, hschema⟩ := hget
  have hres := resolveLatest_ok hlist hfind
  have hg : ¬(({ st with consecutiveFailureCount := 0 } : SyncState).lastAppliedVersion ≠ "" ∧
      compareVersions v ({ st with consecutiveFailureCount := 0 } : SyncState).lastAppliedVersion ≤ 0) := by
    have hl : ({ st with consecutiveFailureCount := 0 } : SyncState).lastAppliedVersion
        = st.lastAppliedVersion := rfl
    rw [hl]
    rcases hguard with h | h
    · intro hc; exact hc.1 h
    · intro hc; omega
  cases hsl : cfg.skipLock with
  | true =>
    rcases hmk with hcf | hm
    · refine ⟨[Effect.listObjects, Effect.getObject k], [], ?_, ?_, ?_⟩
      · intro e he
        simp only [List.mem_cons, List.not_mem_nil, or_false] at he
        tauto
      · intro e he
        simp at he
      · rw [runSync_resolve_ok st hres, syncAfterResolve_continue hg,
          syncMarkerStep_none hcf, syncDownloadStep_ok hschema,
          syncLockStep_skip hsl]
        rfl
    · by_cases hcf : cfg.completedFile = ""
      · refine ⟨[Effect.listObjects, Effect.getObject k], [], ?_, ?_, ?_⟩
        · intro e he
          simp only [List.mem_cons, List.not_mem_nil, or_false] at he
          tauto
        · intro e he
          simp at he
        · rw [runSync_resolve_ok st hres, syncAfterResolve_continue hg,
            syncMarkerStep_none hcf, syncDownloadStep_ok hschema,
            syncLockStep_skip hsl]
          rfl
      · refine ⟨[Effect.listObjects,
          Effect.headObject (buildCompletionMarkerKey k cfg.completedFile),
          Effect.getObject k], [], ?_, ?_, ?_⟩
        · intro e he
          simp only [List.mem_cons, List.not_mem_nil, or_false] at he
          tauto
        · intro e he
          simp at he
        · rw [runSync_resolve_ok st hres, syncAfterResolve_continue hg,
            syncMarkerStep_continue hcf hm, syncDownloadStep_ok hschema,
            syncLockStep_skip hsl]
          rfl
  | false =>
    obtain ⟨hconn, htry⟩ := hlock hsl
    rcases hmk with hcf | hm
    · refine ⟨[Effect.listObjects, Effect.getObject k, Effect.lockConnect,
        Effect.tryLock], [Effect.unlock, Effect.lockClose], ?_, ?_, ?_⟩
      · intro e he
        simp only [List.mem_cons, List.not_mem_nil, or_false] at he
        tauto
      · intro e he
        simp only [List.mem_cons, List.not_mem_nil, or_false] at he
        tauto
      · rw [runSync_resolve_ok st hres, syncAfterResolve_continue hg,
          syncMarkerStep_none hcf, syncDownloadStep_ok hschema,
          syncLockStep_acquired hsl hconn htry]
        rfl
    · by_cases hcf : cfg.completedFile = ""
      · refine ⟨[Effect.listObjects, Effect.getObject k, Effect.lockConnect,
          Effect.tryLock], [Effect.unlock, Effect.lockClose], ?_, ?_, ?_⟩
        · intro e he
          simp only [List.mem_cons, List.not_mem_nil, or_false] at he
          tauto
        · intro e he
          simp only [List.mem_cons, List.not_mem_nil, or_false] at he
          tauto
        · rw [runSync_resolve_ok st hres, syncAfterResolve_continue hg,
            syncMarkerStep_none hcf, syncDownloadStep_ok hschema,
            syncLockStep_acquired hsl hconn htry]
          rfl
      · refine ⟨[Effect.listObjects,
          Effect.headObject (buildCompletionMarkerKey k cfg.completedFile),
          Effect.getObject k, Effect.lockConnect, Effect.tryLock],
          [Effect.unlock, Effect.lockClose], ?_, ?_, ?_⟩
        · intro e he
          simp only [List.mem_cons, List.not_mem_nil, or_false] at he
          tauto
        · intro e he
          simp only [List.mem_cons, List.not_mem_nil, or_false] at he
          tauto
        · rw [runSync_resolve_ok st hres, syncAfterResolve_continue hg,
            syncMarkerStep_continue hcf hm, syncDownloadStep_ok hschema,
            syncLockStep_acquired hsl hconn htry]
          rfl

theorem guard_not_skip {st : SyncState} {v : String}
    (hguard : st.lastAppliedVersion = "" ∨ 0 < compareVersions v st.lastAppliedVersion) :
    ¬(({ st with consecutiveFailureCount := 0 } : SyncState).lastAppliedVersion ≠ "" ∧
      compareVersions v ({ st with consecutiveFailureCount := 0 } : SyncState).lastAppliedVersion ≤ 0) := by
  have hl : ({ st with consecutiveFailureCount := 0 } : SyncState).lastAppliedVersion
      = st.lastAppliedVersion := rfl
  rw [hl]
  rcases hguard with h | h
  · intro hc; exact hc.1 h
  · intro hc; omega

/-! ### Claim C1 -/

/-- C1 (counterexample): with last-applied version `v1` cached — which
exists and is not strictly newer than the resolved latest `v2` — the
cycle is not a no-op: it downloads the schema and runs the differ. -/
theorem C1_counterexample :
    ((⟨"v1", 0⟩ : SyncState).lastAppliedVersion ≠ "" ∧
      compareVersions "v1" "v2" ≤ 0) ∧
    resolveLatest sampleCfg sampleEnv = .ok ("schemas/v2/schema.sql", "v2") ∧
    (runSync sampleCfg sampleEnv ⟨"v1", 0⟩).1 = .ok () ∧
    Effect.getObject "schemas/v2/schema.sql"
      ∈ (runSync sampleCfg sampleEnv ⟨"v1", 0⟩).2.2 ∧
    Effect.differApply ∈ (runSync sampleCfg sampleEnv ⟨"v1", 0⟩).2.2 := by
  refine ⟨⟨by decide, by decide⟩, rfl, rfl, ?_, ?_⟩ <;> decide

/-- C1 (amended): when a last-applied version exists and the resolved
latest does not compare strictly newer than it
(`compareVersions latest lastApplied ≤ 0`), the cycle is a no-op: it
returns success, resets the failure counter, and performs no effect
beyond the listing — no download, no lock, no apply, no hook. -/
theorem C1_guard_noop :
    ∀ (cfg : Config) (env : CycleEnv) (st : SyncState) (keys : List String)
      (k v : String),
      env.listObjects = .ok keys →
      findLatestVersion keys cfg.pathPfx cfg.schemaFile = .ok (k, v) →
      st.lastAppliedVersion ≠ "" →
      compareVersions v st.lastAppliedVersion ≤ 0 →
      runSync cfg env st =
        (.ok (), { st with consecutiveFailureCount := 0 },
         [Effect.listObjects]) := by
  intro cfg env st keys k v hlist hfind hne hle
  have hres := resolveLatest_ok hlist hfind
  rw [runSync_resolve_ok st hres,
    syncAfterResolve_skip cfg env { st with consecutiveFailureCount := 0 } k v
      ⟨hne, hle⟩]

/-- Closed instance of the amended C1: cached `v2`, resolved latest `v2`. -/
theorem C1_witness :
    runSync sampleCfg sampleEnv ⟨"v2", 5⟩ =
      (.ok (), ⟨"v2", 0⟩, [Effect.listObjects]) := by
  exact C1_guard_noop sampleCfg sampleEnv ⟨"v2", 5⟩
    ["schemas/v1/schema.sql", "schemas/v2/schema.sql"]
    "schemas/v2/schema.sql" "v2" rfl rfl (by decide) (by decide)

/-! ### Claim C5 -/

/-- C5: when the completion marker already exists for the resolved
latest version, the cycle caches that version as last-applied and ends as
a no-op: the only effects are the listing and the marker probe — no
`GetObject`, no lock connection or acquisition, no hook. -/
theorem C5_marker_exists_noop :
    ∀ (cfg : Config) (env : CycleEnv) (st : SyncState) (keys : List String)
      (k v : String),
      env.listObjects = .ok keys →
      findLatestVersion keys cfg.pathPfx cfg.schemaFile = .ok (k, v) →
      (st.lastAppliedVersion = "" ∨ 0 < compareVersions v st.lastAppliedVersion) →
      cfg.completedFile ≠ "" →
      env.headMarker = .ok () →
      runSync cfg env st =
        (.ok (), { lastAppliedVersion := v, consecutiveFailureCount := 0 },
         [Effect.listObjects,
          Effect.headObject (buildCompletionMarkerKey k cfg.completedFile)]) := by
  intro cfg env st keys k v hlist hfind hguard hcf hhead
  have hres := resolveLatest_ok hlist hfind
  have hm : checkCompletionMarker env.headMarker = .ok true := by
    rw [hhead]
    rfl
  rw [runSync_resolve_ok st hres, syncAfterResolve_continue (guard_not_skip hguard),
    syncMarkerStep_exists hcf hm]

/-- Closed instance of C5: marker present for `v2`. -/
theorem C5_witness :
    runSync sampleCfg { sampleEnv with headMarker := .ok () } ⟨"", 0⟩ =
      (.ok (), { lastAppliedVersion := "v2", consecutiveFailureCount := 0 },
       [Effect.listObjects, Effect.headObject "schemas/v2/completed"]) := by
  exact C5_marker_exists_noop sampleCfg { sampleEnv with headMarker := .ok () }
    ⟨"", 0⟩ ["schemas/v1/schema.sql", "schemas/v2/schema.sql"]
    "schemas/v2/schema.sql" "v2" rfl rfl (Or.inl rfl) (by decide) rfl

/-! ### Claim C7 -/

/-- C7: when the differ exits non-zero, the apply-failed hook is invoked
with the error text and the captured stdout/stderr in its environment,
the cycle returns an error, no object is written (in particular no
completion marker), and the last-applied cache is unchanged. -/
theorem C7_apply_failed_hook :
    ∀ (cfg : Config) (env : CycleEnv) (st : SyncState) (keys : List String)
      (k v : String) (res : ApplyResult) (emsg : String),
      env.listObjects = .ok keys →
      findLatestVersion keys cfg.pathPfx cfg.schemaFile = .ok (k, v) →
      (st.lastAppliedVersion = "" ∨ 0 < compareVersions v st.lastAppliedVersion) →
      (cfg.completedFile = "" ∨ checkCompletionMarker env.headMarker ≠ .ok true) →
      (∃ schema, env.getObject = .ok schema) →
      (cfg.skipLock = false → env.lockConnect = .ok () ∧ env.tryLock = .ok true) →
      env.applyOutcome = .ran res (some emsg) →
      (runSync cfg env st).1 = .error ("failed to apply schema: " ++ emsg) ∧
      Effect.hookCall "on-apply-failed" cfg.onApplyFailed
        { baseHookEnv cfg with
          version := v
          error := emsg
          stdout := res.stdout
          stderr := res.stderr } ∈ (runSync cfg env st).2.2 ∧
      (∀ k2, Effect.putObject k2 ∉ (runSync cfg env st).2.2) ∧
      (runSync cfg env st).2.1.lastAppliedVersion = st.lastAppliedVersion := by
  intro cfg env st keys k v res emsg hlist hfind hguard hmk hget hlock happly
  obtain ⟨fx1, dfx, hfx1, hdfx, heq⟩ :=
    runSync_reaches_apply hlist hfind hguard hmk hget hlock
  rw [heq, syncApplyStep_failed dfx happly]
  refine ⟨rfl, ?_, ?_, rfl⟩
  · simp
  · intro k2 hmem
    simp only [List.mem_append, List.mem_cons, List.not_mem_nil, or_false] at hmem
    rcases hmem with h | h
    · rcases hfx1 _ h with h1 | h1 | h1 | h1 | h1 <;> exact Effect.noConfusion h1
    · rcases h with (h1 | h1 | h1 | h1) | h1
      · exact Effect.noConfusion h1
      · exact Effect.noConfusion h1
      · exact Effect.noConfusion h1
      · exact Effect.noConfusion h1
      · rcases hdfx _ h1 with h2 | h2 <;> exact Effect.noConfusion h2

/-- Closed instance of C7: the differ fails with captured stderr
`"syntax error"`. -/
theorem C7_witness :
    ((runSync sampleCfg
        { sampleEnv with
          applyOutcome := .ran ⟨"", "syntax error"⟩ (some "exit status 1") }
        ⟨"", 0⟩).1 = .error "failed to apply schema: exit status 1") ∧
    Effect.hookCall "on-apply-failed" "notify-failed"
      { baseHookEnv sampleCfg with
        version := "v2"
        error := "exit status 1"
        stdout := ""
        stderr := "syntax error" } ∈
      (runSync sampleCfg
        { sampleEnv with
          applyOutcome := .ran ⟨"", "syntax error"⟩ (some "exit status 1") }
        ⟨"", 0⟩).2.2 ∧
    (∀ k2, Effect.putObject k2 ∉
      (runSync sampleCfg
        { sampleEnv with
          applyOutcome := .ran ⟨"", "syntax error"⟩ (some "exit status 1") }
        ⟨"", 0⟩).2.2) := by
  have h := C7_apply_failed_hook sampleCfg
    { sampleEnv with
      applyOutcome := .ran ⟨"", "syntax error"⟩ (some "exit status 1") }
    ⟨"", 0⟩ ["schemas/v1/schema.sql", "schemas/v2/schema.sql"]
    "schemas/v2/schema.sql" "v2" ⟨"", "syntax error"⟩ "exit status 1"
    rfl rfl (Or.inl rfl)
    (Or.inr (by
      intro hcontra
      have h2 : (Except.ok false : Except String Bool) = .ok true := hcontra
      exact Bool.noConfusion (Except.ok.inj h2)))
    ⟨"create table t (id int);", rfl⟩ (fun _ => ⟨rfl, rfl⟩) rfl
  exact ⟨h.1, h.2.1, h.2.2.1⟩

/-! ### Claim C9 -/

/-- C9: marker creation is best-effort — after a successful apply, even
when the marker `PutObject` fails, the cycle still returns success, the
marker write is attempted, the apply-succeeded hook still runs, and the
version is cached as last-applied. -/
theorem C9_marker_write_best_effort :
    ∀ (cfg : Config) (env : CycleEnv) (st : SyncState) (keys : List String)
      (k v : String) (res : ApplyResult) (m : String),
      env.listObjects = .ok keys →
      findLatestVersion keys cfg.pathPfx cfg.schemaFile = .ok (k, v) →
      (st.lastAppliedVersion = "" ∨ 0 < compareVersions v st.lastAppliedVersion) →
      (cfg.completedFile = "" ∨ checkCompletionMarker env.headMarker ≠ .ok true) →
      (∃ schema, env.getObject = .ok schema) →
      (cfg.skipLock = false → env.lockConnect = .ok () ∧ env.tryLock = .ok true) →
      env.applyOutcome = .ran res none →
      cfg.completedFile ≠ "" →
      env.putMarker = .error m →
      (runSync cfg env st).1 = .ok () ∧
      Effect.putObject (buildCompletionMarkerKey k cfg.completedFile)
        ∈ (runSync cfg env st).2.2 ∧
      Effect.hookCall "on-apply-succeeded" cfg.onApplySucceeded
        { baseHookEnv cfg with version := v } ∈ (runSync cfg env st).2.2 ∧
      (runSync cfg env st).2.1.lastAppliedVersion = v := by
  intro cfg env st keys k v res m hlist hfind hguard hmk hget hlock happly hcf hput
  obtain ⟨fx1, dfx, hfx1, hdfx, heq⟩ :=
    runSync_reaches_apply hlist hfind hguard hmk hget hlock
  rw [heq, syncApplyStep_ok dfx happly]
  refine ⟨rfl, ?_, ?_, rfl⟩
  · rw [if_pos hcf]
    simp
  · simp

/-- Closed instance of C9: the marker write fails, the cycle still
succeeds and fires the success hook. -/
theorem C9_witness :
    ((runSync sampleCfg { sampleEnv with putMarker := .error "denied" }
        ⟨"", 0⟩).1 = .ok ()) ∧
    Effect.putObject "schemas/v2/completed" ∈
      (runSync sampleCfg { sampleEnv with putMarker := .error "denied" }
        ⟨"", 0⟩).2.2 ∧
    Effect.hookCall "on-apply-succeeded" "notify-ok"
      { baseHookEnv sampleCfg with version := "v2" } ∈
      (runSync sampleCfg { sampleEnv with putMarker := .error "denied" }
        ⟨"", 0⟩).2.2 := by
  have h := C9_marker_write_best_effort sampleCfg
    { sampleEnv with putMarker := .error "denied" } ⟨"", 0⟩
    ["schemas/v1/schema.sql", "schemas/v2/schema.sql"]
    "schemas/v2/schema.sql" "v2" ⟨"applied", ""⟩ "denied"
    rfl rfl (Or.inl rfl)
    (Or.inr (by
      intro hcontra
      have h2 : (Except.ok false : Except String Bool) = .ok true := hcontra
      exact Bool.noConfusion (Except.ok.inj h2)))
    ⟨"create table t (id int);", rfl⟩ (fun _ => ⟨rfl, rfl⟩) rfl (by decide) rfl
  exact ⟨h.1, h.2.1, h.2.2.1⟩

theorem syncApplyStep_tmpError {cfg : Config} {env : CycleEnv} {st : SyncState}
    {key ver : String} {emsg : String}
    (dfx : List Effect) (h : env.applyOutcome = .tmpError emsg) :
    syncApplyStep cfg env st key ver dfx =
      (.error ("failed to apply schema: " ++ emsg), st,
       [Effect.differDryRun,
        Effect.hookCall "on-before-apply" cfg.onBeforeApply
          { baseHookEnv cfg with version := ver, dryRun := env.dryRun.1 },
        Effect.differApply,
        Effect.hookCall "on-apply-failed" cfg.onApplyFailed
          { baseHookEnv cfg with version := ver, error := emsg }] ++ dfx) := by
  unfold syncApplyStep
  rw [h]
  rfl

/-- The apply phase never touches the failure counter and never invokes
the fetch-error hook. -/
theorem syncApplyStep_fc_hook (cfg : Config) (env : CycleEnv)
    (st : SyncState) (key ver : String) (dfx : List Effect)
    (hdfx : ∀ he, Effect.hookCall "on-s3-fetch-error" cfg.onS3FetchError he ∉ dfx) :
    (syncApplyStep cfg env st key ver dfx).2.1.consecutiveFailureCount
      = st.consecutiveFailureCount ∧
    ∀ he, Effect.hookCall "on-s3-fetch-error" cfg.onS3FetchError he
      ∉ (syncApplyStep cfg env st key ver dfx).2.2 := by
  cases happly : env.applyOutcome with
  | tmpError e =>
    rw [syncApplyStep_tmpError dfx happly]
    refine ⟨rfl, ?_⟩
    intro he hmem
    have hd := hdfx he
    rw [List.mem_append] at hmem
    rcases hmem with h | h
    · simp at h
    · exact hd h
  | ran res exitErr =>
    cases exitErr with
    | some e =>
      rw [syncApplyStep_failed dfx happly]
      refine ⟨rfl, ?_⟩
      intro he hmem
      have hd := hdfx he
      rw [List.mem_append] at hmem
      rcases hmem with h | h
      · simp at h
      · exact hd h
    | none =>
      rw [syncApplyStep_ok dfx happly]
      refine ⟨rfl, ?_⟩
      intro he hmem
      have hd := hdfx he
      rcases List.mem_append.mp hmem with h | h
      swap
      · exact hd h
      rcases List.mem_append.mp h with h | h
      swap
      · simp at h
      rcases List.mem_append.mp h with h | h
      swap
      · by_cases hcf : cfg.completedFile ≠ ""
        · rw [if_pos hcf] at h
          simp at h
        · rw [if_neg hcf] at h
          simp at h
      rcases List.mem_append.mp h with h | h
      · simp at h
      · by_cases hexp : cfg.exportAfterApply = true
        · rw [if_pos hexp] at h
          rcases List.mem_cons.mp h with h1 | h1
          · exact Effect.noConfusion h1
          · cases hes : env.exportSchema <;> rw [hes] at h1 <;> simp at h1
        · rw [if_neg hexp] at h
          simp at h

/-- The lock phase never touches the failure counter and never invokes
the fetch-error hook. -/
theorem syncLockStep_fc_hook (cfg : Config) (env : CycleEnv)
    (st : SyncState) (key ver : String) :
    (syncLockStep cfg env st key ver).2.1.consecutiveFailureCount
      = st.consecutiveFailureCount ∧
    ∀ he, Effect.hookCall "on-s3-fetch-error" cfg.onS3FetchError he
      ∉ (syncLockStep cfg env st key ver).2.2 := by
  have hd0 : ∀ he, Effect.hookCall "on-s3-fetch-error" cfg.onS3FetchError he
      ∉ ([] : List Effect) := by
    intro he h; simp at h
  have hd2 : ∀ he, Effect.hookCall "on-s3-fetch-error" cfg.onS3FetchError he
      ∉ [Effect.unlock, Effect.lockClose] := by
    intro he h; simp at h
  cases hsl : cfg.skipLock with
  | true =>
    rw [syncLockStep_skip hsl]
    exact syncApplyStep_fc_hook cfg env st key ver [] hd0
  | false =>
    cases hconn : env.lockConnect with
    | error e =>
      unfold syncLockStep
      rw [hsl, hconn]
      refine ⟨rfl, ?_⟩
      intro he h
      simp at h
    | ok u =>
      cases u
      cases htry : env.tryLock with
      | error e =>
        unfold syncLockStep
        rw [hsl, hconn, htry]
        refine ⟨rfl, ?_⟩
        intro he h
        simp at h
      | ok b =>
        cases b with
        | false =>
          unfold syncLockStep
          rw [hsl, hconn, htry]
          refine ⟨rfl, ?_⟩
          intro he h
          simp at h
        | true =>
          rw [syncLockStep_acquired hsl hconn htry]
          have hap := syncApplyStep_fc_hook cfg env st key ver
            [Effect.unlock, Effect.lockClose] hd2
          refine ⟨hap.1, ?_⟩
          intro he h
          rcases List.mem_cons.mp h with h1 | h1
          · exact Effect.noConfusion h1
          rcases List.mem_cons.mp h1 with h2 | h2
          · exact Effect.noConfusion h2
          · exact hap.2 he h2

/-- From the download step on, when the counter enters at zero it leaves
at most one, and the fetch-error hook is never invoked. -/
theorem syncDownloadStep_fc_hook (cfg : Config) (env : CycleEnv)
    (st : SyncState) (key ver : String)
    (hfc : st.consecutiveFailureCount = 0) :
    (syncDownloadStep cfg env st key ver).2.1.consecutiveFailureCount ≤ 1 ∧
    ∀ he, Effect.hookCall "on-s3-fetch-error" cfg.onS3FetchError he
      ∉ (syncDownloadStep cfg env st key ver).2.2 := by
  cases hget : env.getObject with
  | error e =>
    rw [syncDownloadStep_error hget]
    constructor
    · show st.consecutiveFailureCount + 1 ≤ 1
      omega
    · intro he h
      rw [hfc] at h
      rw [if_neg (by unfold maxConsecutiveFailures; omega)] at h
      simp at h
  | ok schema =>
    rw [syncDownloadStep_ok hget]
    have hl := syncLockStep_fc_hook cfg env st key ver
    refine ⟨by rw [hl.1, hfc]; omega, ?_⟩
    intro he h
    rcases List.mem_cons.mp h with h1 | h1
    · exact Effect.noConfusion h1
    · exact hl.2 he h1

/-- After a successful resolution (counter already reset to zero), the
remainder of the cycle leaves the counter at zero or one and never
invokes the fetch-error hook. -/
theorem syncAfterResolve_fc_hook (cfg : Config) (env : CycleEnv)
    (st : SyncState) (key ver : String)
    (hfc : st.consecutiveFailureCount = 0) :
    (syncAfterResolve cfg env st key ver).2.1.consecutiveFailureCount ≤ 1 ∧
    ∀ he, Effect.hookCall "on-s3-fetch-error" cfg.onS3FetchError he
      ∉ (syncAfterResolve cfg env st key ver).2.2 := by
  by_cases hg : st.lastAppliedVersion ≠ "" ∧
      compareVersions ver st.lastAppliedVersion ≤ 0
  · rw [syncAfterResolve_skip cfg env st key ver hg]
    refine ⟨by rw [hfc]; omega, ?_⟩
    intro he h
    simp at h
  · rw [syncAfterResolve_continue hg]
    by_cases hcf : cfg.completedFile = ""
    · rw [syncMarkerStep_none hcf]
      exact syncDownloadStep_fc_hook cfg env st key ver hfc
    · by_cases hm : checkCompletionMarker env.headMarker = .ok true
      · rw [syncMarkerStep_exists hcf hm]
        refine ⟨by rw [hfc]; omega, ?_⟩
        intro he h
        rcases List.mem_cons.mp h with h1 | h1
        · exact Effect.noConfusion h1
        · simp at h1
      · rw [syncMarkerStep_continue hcf hm]
        have hd := syncDownloadStep_fc_hook cfg env st key ver hfc
        refine ⟨hd.1, ?_⟩
        intro he h
        rcases List.mem_cons.mp h with h1 | h1
        · exact Effect.noConfusion h1
        · exact hd.2 he h1

/-- A cycle whose resolution fails: the counter increments, the cycle
errors, and the fetch-error hook is invoked exactly when the incremented
counter reaches the threshold. -/
theorem runSync_resolve_error_spec (cfg : Config) (env : CycleEnv)
    (st : SyncState) (e : String) (h : resolveLatest cfg env = .error e) :
    (runSync cfg env st).2.1.consecutiveFailureCount
      = st.consecutiveFailureCount + 1 ∧
    (fetchHookFired cfg (runSync cfg env st).2.2 ↔
      maxConsecutiveFailures ≤ st.consecutiveFailureCount + 1) ∧
    (runSync cfg env st).1 = .error ("failed to find latest schema: " ++ e) := by
  rw [runSync_resolve_error st h]
  refine ⟨rfl, ?_, rfl⟩
  by_cases hth : maxConsecutiveFailures ≤ st.consecutiveFailureCount + 1
  · rw [if_pos hth]
    constructor
    · intro _
      exact hth
    · intro _
      exact ⟨{ baseHookEnv cfg with error := e }, by simp⟩
  · rw [if_neg hth]
    constructor
    · rintro ⟨he, hmem⟩
      rcases List.mem_cons.mp hmem with h1 | h1
      · exact Effect.noConfusion h1
      · simp at h1
    · intro hc
      exact absurd hc hth

/-- A cycle whose resolution succeeds: the counter is reset (it ends the
cycle at zero, or one after a failed download) and the fetch-error hook
is never invoked. -/
theorem runSync_resolve_ok_spec (cfg : Config) (env : CycleEnv)
    (st : SyncState) (k v : String) (h : resolveLatest cfg env = .ok (k, v)) :
    (runSync cfg env st).2.1.consecutiveFailureCount ≤ 1 ∧
    ¬ fetchHookFired cfg (runSync cfg env st).2.2 := by
  rw [runSync_resolve_ok st h]
  have ha := syncAfterResolve_fc_hook cfg env
    { st with consecutiveFailureCount := 0 } k v rfl
  refine ⟨ha.1, ?_⟩
  rintro ⟨he, hmem⟩
  rcases List.mem_cons.mp hmem with h1 | h1
  · exact Effect.noConfusion h1
  · exact ha.2 he h1

theorem runCycles_cons (cfg : Config) (env : CycleEnv) (rest : List CycleEnv)
    (st : SyncState) :
    runCycles cfg (env :: rest) st =
      (((runSync cfg env st).1, (runSync cfg env st).2.2) ::
         (runCycles cfg rest (runSync cfg env st).2.1).1,
       (runCycles cfg rest (runSync cfg env st).2.1).2) := by
  rcases hrs : runSync cfg env st with ⟨r, st2, tr⟩
  rcases hrc : runCycles cfg rest st2 with ⟨rs, stF⟩
  unfold runCycles
  rw [hrs]
  show (match runCycles cfg rest st2 with
    | (rs, stF) => ((r, tr) :: rs, stF)) = _
  rw [hrc]

/-! ### Claim C6 -/

/-- C6: the consecutive-failure counter increments on every fetch
failure (listing or download) and is reset by a successful listing; the
fetch-error hook is invoked in exactly those failing cycles where the
incremented counter is at or above the threshold `3` — in particular on
the third and every subsequent consecutive listing failure
(level-triggered), never after a successful listing (a download failure
leaves the counter at `1`), and a success resets the count so the
escalation starts over. -/
theorem C6_failure_counter_level_triggered :
    (∀ (cfg : Config) (env : CycleEnv) (st : SyncState) (e : String),
      resolveLatest cfg env = .error e →
      (runSync cfg env st).2.1.consecutiveFailureCount
        = st.consecutiveFailureCount + 1 ∧
      (fetchHookFired cfg (runSync cfg env st).2.2 ↔
        maxConsecutiveFailures ≤ st.consecutiveFailureCount + 1) ∧
      (runSync cfg env st).1 = .error ("failed to find latest schema: " ++ e)) ∧
    (∀ (cfg : Config) (env : CycleEnv) (st : SyncState) (keys : List String)
        (k v e : String),
      env.listObjects = .ok keys →
      findLatestVersion keys cfg.pathPfx cfg.schemaFile = .ok (k, v) →
      (st.lastAppliedVersion = "" ∨ 0 < compareVersions v st.lastAppliedVersion) →
      (cfg.completedFile = "" ∨ checkCompletionMarker env.headMarker ≠ .ok true) →
      env.getObject = .error e →
      (runSync cfg env st).2.1.consecutiveFailureCount = 1 ∧
      ¬ fetchHookFired cfg (runSync cfg env st).2.2) ∧
    (∀ (cfg : Config) (env : CycleEnv) (st : SyncState) (k v : String),
      resolveLatest cfg env = .ok (k, v) →
      (runSync cfg env st).2.1.consecutiveFailureCount ≤ 1 ∧
      ¬ fetchHookFired cfg (runSync cfg env st).2.2) ∧
    (∀ (cfg : Config) (envs : List CycleEnv) (st : SyncState),
      (∀ env ∈ envs, ∃ e, env.listObjects = .error e) →
      ∀ (i : Nat) (r : Except String Unit) (tr : List Effect),
        (runCycles cfg envs st).1[i]? = some (r, tr) →
        (fetchHookFired cfg tr ↔
          maxConsecutiveFailures ≤ st.consecutiveFailureCount + i + 1)) := by
  refine ⟨runSync_resolve_error_spec, ?_, runSync_resolve_ok_spec, ?_⟩
  · intro cfg env st keys k v e hlist hfind hguard hmk hget
    have hres := resolveLatest_ok hlist hfind
    have hok := runSync_resolve_ok_spec cfg env st k v hres
    refine ⟨?_, hok.2⟩
    rw [runSync_resolve_ok st hres,
      syncAfterResolve_continue (guard_not_skip hguard)]
    rcases hmk with hcf | hm
    · rw [syncMarkerStep_none hcf, syncDownloadStep_error hget]
    · by_cases hcf : cfg.completedFile = ""
      · rw [syncMarkerStep_none hcf, syncDownloadStep_error hget]
      · rw [syncMarkerStep_continue hcf hm, syncDownloadStep_error hget]
  · intro cfg envs
    induction envs with
    | nil =>
      intro st h i r tr hi
      simp [runCycles] at hi
    | cons env rest ih =>
      intro st h i r tr hi
      obtain ⟨e, he⟩ := h env (List.mem_cons_self env rest)
      have hres : resolveLatest cfg env = .error e := by
        unfold resolveLatest
        rw [he]
      have hspec := runSync_resolve_error_spec cfg env st e hres
      rw [runCycles_cons] at hi
      cases i with
      | zero =>
        rw [List.getElem?_cons_zero] at hi
        have hpair : ((runSync cfg env st).1, (runSync cfg env st).2.2) = (r, tr) :=
          Option.some.inj hi
        have htr : tr = (runSync cfg env st).2.2 := (congrArg Prod.snd hpair).symm
        rw [htr]
        have := hspec.2.1
        constructor
        · intro hk
          have := this.mp hk
          omega
        · intro hk
          exact this.mpr (by omega)
      | succ i =>
        rw [List.getElem?_cons_succ] at hi
        have hrest : ∀ env2 ∈ rest, ∃ e2, env2.listObjects = .error e2 :=
          fun env2 hm => h env2 (List.mem_cons_of_mem env hm)
        have := ih (runSync cfg env st).2.1 hrest i r tr hi
        rw [hspec.1] at this
        constructor
        · intro hk
          have := this.mp hk
          omega
        · intro hk
          exact this.mpr (by omega)

/-- Closed instance of C6: with two prior consecutive failures, a third
failing listing fires the fetch-error hook and sets the counter to 3. -/
theorem C6_witness :
    ((runSync sampleCfg { sampleEnv with listObjects := .error "timeout" }
        ⟨"", 2⟩).2.1.consecutiveFailureCount = 3) ∧
    fetchHookFired sampleCfg
      (runSync sampleCfg { sampleEnv with listObjects := .error "timeout" }
        ⟨"", 2⟩).2.2 ∧
    ¬ fetchHookFired sampleCfg (runSync sampleCfg
        { sampleEnv with listObjects := .error "timeout" } ⟨"", 1⟩).2.2 := by
  have h3 := C6_failure_counter_level_triggered.1 sampleCfg
    { sampleEnv with listObjects := .error "timeout" } ⟨"", 2⟩ "timeout" rfl
  have h2 := C6_failure_counter_level_triggered.1 sampleCfg
    { sampleEnv with listObjects := .error "timeout" } ⟨"", 1⟩ "timeout" rfl
  refine ⟨h3.1, h3.2.1.mpr (by decide), ?_⟩
  intro hk
  have := h2.2.1.mp hk
  exact absurd this (by decide)

/-- Apply phase: either the state is untouched, or the cycle succeeded
and the differ ran in apply mode. -/
theorem syncApplyStep_last_cases (cfg : Config) (env : CycleEnv)
    (st : SyncState) (key ver : String) (dfx : List Effect) :
    (syncApplyStep cfg env st key ver dfx).2.1.lastAppliedVersion
      = st.lastAppliedVersion ∨
    ((syncApplyStep cfg env st key ver dfx).1 = .ok () ∧
     Effect.differApply ∈ (syncApplyStep cfg env st key ver dfx).2.2) := by
  cases happly : env.applyOutcome with
  | tmpError e =>
    rw [syncApplyStep_tmpError dfx happly]
    left
    rfl
  | ran res exitErr =>
    cases exitErr with
    | some e =>
      rw [syncApplyStep_failed dfx happly]
      left
      rfl
    | none =>
      rw [syncApplyStep_ok dfx happly]
      right
      refine ⟨rfl, ?_⟩
      simp

theorem syncLockStep_last_cases (cfg : Config) (env : CycleEnv)
    (st : SyncState) (key ver : String) :
    (syncLockStep cfg env st key ver).2.1.lastAppliedVersion
      = st.lastAppliedVersion ∨
    ((syncLockStep cfg env st key ver).1 = .ok () ∧
     Effect.differApply ∈ (syncLockStep cfg env st key ver).2.2) := by
  cases hsl : cfg.skipLock with
  | true =>
    rw [syncLockStep_skip hsl]
    exact syncApplyStep_last_cases cfg env st key ver []
  | false =>
    cases hconn : env.lockConnect with
    | error e =>
      unfold syncLockStep
      rw [hsl, hconn]
      left
      rfl
    | ok u =>
      cases u
      cases htry : env.tryLock with
      | error e =>
        unfold syncLockStep
        rw [hsl, hconn, htry]
        left
        rfl
      | ok b =>
        cases b with
        | false =>
          unfold syncLockStep
          rw [hsl, hconn, htry]
          left
          rfl
        | true =>
          rw [syncLockStep_acquired hsl hconn htry]
          rcases syncApplyStep_last_cases cfg env st key ver
            [Effect.unlock, Effect.lockClose] with h | h
          · left
            exact h
          · right
            exact ⟨h.1, List.mem_cons_of_mem _ (List.mem_cons_of_mem _ h.2)⟩

theorem syncDownloadStep_last_cases (cfg : Config) (env : CycleEnv)
    (st : SyncState) (key ver : String) :
    (syncDownloadStep cfg env st key ver).2.1.lastAppliedVersion
      = st.lastAppliedVersion ∨
    ((syncDownloadStep cfg env st key ver).1 = .ok () ∧
     Effect.differApply ∈ (syncDownloadStep cfg env st key ver).2.2) := by
  cases hget : env.getObject with
  | error e =>
    rw [syncDownloadStep_error hget]
    left
    rfl
  | ok schema =>
    rw [syncDownloadStep_ok hget]
    rcases syncLockStep_last_cases cfg env st key ver with h | h
    · left
      exact h
    · right
      exact ⟨h.1, List.mem_cons_of_mem _ h.2⟩

theorem syncMarkerStep_last_cases (cfg : Config) (env : CycleEnv)
    (st : SyncState) (key ver : String) :
    (syncMarkerStep cfg env st key ver).2.1.lastAppliedVersion
      = st.lastAppliedVersion ∨
    ((syncMarkerStep cfg env st key ver).1 = .ok () ∧
     (Effect.differApply ∈ (syncMarkerStep cfg env st key ver).2.2 ∨
      ((∃ mk, Effect.headObject mk ∈ (syncMarkerStep cfg env st key ver).2.2) ∧
       ∀ k2, Effect.getObject k2 ∉ (syncMarkerStep cfg env st key ver).2.2))) := by
  by_cases hcf : cfg.completedFile = ""
  · rw [syncMarkerStep_none hcf]
    rcases syncDownloadStep_last_cases cfg env st key ver with h | h
    · left
      exact h
    · right
      exact ⟨h.1, Or.inl h.2⟩
  · by_cases hm : checkCompletionMarker env.headMarker = .ok true
    · rw [syncMarkerStep_exists hcf hm]
      right
      refine ⟨rfl, Or.inr ⟨⟨buildCompletionMarkerKey key cfg.completedFile, ?_⟩, ?_⟩⟩
      · exact List.mem_singleton.mpr rfl
      · intro k2 hk
        rcases List.mem_singleton.mp hk with h1
        exact Effect.noConfusion h1
    · rw [syncMarkerStep_continue hcf hm]
      rcases syncDownloadStep_last_cases cfg env st key ver with h | h
      · left
        exact h
      · right
        exact ⟨h.1, Or.inl (List.mem_cons_of_mem _ h.2)⟩

theorem runSync_last_cases (cfg : Config) (env : CycleEnv) (st : SyncState) :
    (runSync cfg env st).2.1.lastAppliedVersion = st.lastAppliedVersion ∨
    ((runSync cfg env st).1 = .ok () ∧
     (Effect.differApply ∈ (runSync cfg env st).2.2 ∨
      ((∃ mk, Effect.headObject mk ∈ (runSync cfg env st).2.2) ∧
       ∀ k2, Effect.getObject k2 ∉ (runSync cfg env st).2.2))) := by
  cases hres : resolveLatest cfg env with
  | error e =>
    rw [runSync_resolve_error st hres]
    left
    rfl
  | ok kv =>
    obtain ⟨k, v⟩ := kv
    rw [runSync_resolve_ok st hres]
    by_cases hg : ({ st with consecutiveFailureCount := 0 } : SyncState).lastAppliedVersion ≠ "" ∧
        compareVersions v ({ st with consecutiveFailureCount := 0 } : SyncState).lastAppliedVersion ≤ 0
    · rw [syncAfterResolve_skip cfg env { st with consecutiveFailureCount := 0 } k v hg]
      left
      rfl
    · rw [syncAfterResolve_continue hg]
      rcases syncMarkerStep_last_cases cfg env
        { st with consecutiveFailureCount := 0 } k v with h | h
      · left
        exact h
      · right
        refine ⟨h.1, ?_⟩
        rcases h.2 with h2 | h2
        · exact Or.inl (List.mem_cons_of_mem _ h2)
        · refine Or.inr ⟨⟨h2.1.choose, List.mem_cons_of_mem _ h2.1.choose_spec⟩, ?_⟩
          intro k2 hk
          rcases List.mem_cons.mp hk with h3 | h3
          · exact Effect.noConfusion h3
          · exact h2.2 k2 h3

/-! ### Claim C10 -/

/-- C10: a cycle that returns an error leaves the last-applied cache
unchanged; the cache changes only in a success-flavored outcome — the
cycle returned success and either the differ ran in apply mode or the
marker probe ended the cycle without any download. -/
theorem C10_cache_updated_only_on_success :
    ∀ (cfg : Config) (env : CycleEnv) (st : SyncState),
      (∀ e, (runSync cfg env st).1 = .error e →
        (runSync cfg env st).2.1.lastAppliedVersion = st.lastAppliedVersion) ∧
      ((runSync cfg env st).2.1.lastAppliedVersion ≠ st.lastAppliedVersion →
        (runSync cfg env st).1 = .ok () ∧
        (Effect.differApply ∈ (runSync cfg env st).2.2 ∨
         ((∃ mk, Effect.headObject mk ∈ (runSync cfg env st).2.2) ∧
          ∀ k2, Effect.getObject k2 ∉ (runSync cfg env st).2.2))) := by
  intro cfg env st
  rcases runSync_last_cases cfg env st with h | h
  · exact ⟨fun e _ => h, fun hne => absurd h hne⟩
  · constructor
    · intro e herr
      rw [h.1] at herr
      exact Except.noConfusion herr
    · intro _
      exact h

/-- Closed instance of C10: a failed download leaves the cached
last-applied version `v0` untouched. -/
theorem C10_witness :
    (runSync sampleCfg { sampleEnv with getObject := .error "connection reset" }
      ⟨"v0", 4⟩).2.1.lastAppliedVersion = "v0" := by
  exact (C10_cache_updated_only_on_success sampleCfg
    { sampleEnv with getObject := .error "connection reset" } ⟨"v0", 4⟩).1
    "failed to download schema: connection reset" rfl

/-! ### Path lemmas toward Claim C8 -/

theorem splitCh_ne_nil (sep : Char) : ∀ p, splitCh sep p ≠ [] := by
  intro p
  cases p with
  | nil => simp [splitCh]
  | cons c rest =>
    unfold splitCh
    cases h : splitCh sep rest with
    | nil => simp
    | cons a t =>
      by_cases hc : c = sep <;> simp [hc]

theorem splitCh_cons (sep c : Char) (rest : List Char) (a : List Char)
    (t : List (List Char)) (hsp : splitCh sep rest = a :: t) :
    splitCh sep (c :: rest) =
      if c = sep then [] :: a :: t else (c :: a) :: t := by
  unfold splitCh
  rw [hsp]

theorem splitCh_noslash (sep : Char) :
    ∀ p, ∀ x ∈ splitCh sep p, sep ∉ x := by
  intro p
  induction p with
  | nil =>
    intro x hx
    simp [splitCh] at hx
    simp [hx]
  | cons c rest ih =>
    intro x hx
    cases h : splitCh sep rest with
    | nil => exact absurd h (splitCh_ne_nil sep rest)
    | cons a t =>
      rw [splitCh_cons sep c rest a t h] at hx
      by_cases hc : c = sep
      · rw [if_pos hc] at hx
        rcases List.mem_cons.mp hx with h1 | h1
        · simp [h1]
        · exact ih x (h ▸ h1)
      · rw [if_neg hc] at hx
        rcases List.mem_cons.mp hx with h1 | h1
        · subst h1
          intro hmem
          rcases List.mem_cons.mp hmem with h2 | h2
          · exact hc h2.symm
          · exact ih a (h ▸ List.mem_cons_self a t) h2
        · exact ih x (h ▸ List.mem_cons_of_mem a h1)

theorem splitCh_prepend (sep : Char) :
    ∀ (x l a : List Char) (t : List (List Char)),
      splitCh sep l = a :: t → (∀ ch ∈ x, ch ≠ sep) →
      splitCh sep (x ++ l) = (x ++ a) :: t := by
  intro x
  induction x with
  | nil =>
    intro l a t hl _
    simpa using hl
  | cons c x ih =>
    intro l a t hl hx
    have hc : c ≠ sep := hx c (List.mem_cons_self c x)
    have hrec := ih l a t hl (fun ch hm => hx ch (List.mem_cons_of_mem c hm))
    show splitCh sep (c :: (x ++ l)) = ((c :: x) ++ a) :: t
    rw [splitCh_cons sep c (x ++ l) (x ++ a) t hrec, if_neg hc]
    rfl

theorem splitCh_noslash_single (sep : Char) (x : List Char)
    (hx : ∀ ch ∈ x, ch ≠ sep) : splitCh sep x = [x] := by
  have := splitCh_prepend sep x [] [] [] rfl hx
  simpa using this

theorem splitCh_cons_sep (sep : Char) (l : List Char) :
    splitCh sep (sep :: l) = [] :: splitCh sep l := by
  cases h : splitCh sep l with
  | nil => exact absurd h (splitCh_ne_nil sep l)
  | cons a t =>
    rw [splitCh_cons sep sep l a t h, if_pos rfl]

theorem splitCh_append_sep_comp (sep : Char) :
    ∀ (l c : List Char), sep ∉ c →
      splitCh sep (l ++ sep :: c) = splitCh sep l ++ [c] := by
  intro l
  induction l with
  | nil =>
    intro c hc
    rw [List.nil_append, splitCh_cons_sep,
      splitCh_noslash_single sep c (fun ch hm => by
        intro he
        exact hc (he ▸ hm))]
    rfl
  | cons x l ih =>
    intro c hc
    have hrec := ih c hc
    cases h : splitCh sep l with
    | nil => exact absurd h (splitCh_ne_nil sep l)
    | cons a t =>
      rw [h] at hrec
      show splitCh sep (x :: (l ++ sep :: c)) = splitCh sep (x :: l) ++ [c]
      rw [splitCh_cons sep x (l ++ sep :: c) a (t ++ [c]) (by rw [hrec]; rfl),
        splitCh_cons sep x l a t h]
      by_cases hx : x = sep <;> simp [hx]

theorem joinComps_append_single (c : List Char) :
    ∀ comps, comps ≠ [] →
      joinComps (comps ++ [c]) = joinComps comps ++ '/' :: c := by
  intro comps
  induction comps with
  | nil => intro h; exact absurd rfl h
  | cons a rest ih =>
    intro _
    cases rest with
    | nil => simp [joinComps]
    | cons b rest2 =>
      have hrec := ih (by simp)
      show joinComps (a :: ((b :: rest2) ++ [c]))
        = (a ++ '/' :: joinComps (b :: rest2)) ++ '/' :: c
      rw [show joinComps (a :: ((b :: rest2) ++ [c]))
          = a ++ '/' :: joinComps ((b :: rest2) ++ [c]) from rfl]
      rw [hrec]
      simp

theorem splitCh_joinComps :
    ∀ comps, comps ≠ [] → (∀ x ∈ comps, ('/' : Char) ∉ x) →
      splitCh '/' (joinComps comps) = comps := by
  intro comps
  induction comps with
  | nil => intro h; exact absurd rfl h
  | cons a rest ih =>
    intro _ hns
    cases rest with
    | nil =>
      show splitCh '/' a = [a]
      exact splitCh_noslash_single '/' a (fun ch hm => by
        intro he
        exact hns a (List.mem_cons_self a []) (he ▸ hm))
    | cons b rest2 =>
      have hrec := ih (by simp) (fun x hx => hns x (List.mem_cons_of_mem a hx))
      have hJ : splitCh '/' ('/' :: joinComps (b :: rest2)) = [] :: b :: rest2 := by
        rw [splitCh_cons_sep, hrec]
      have hxa : ∀ ch ∈ a, ch ≠ '/' := fun ch hm => by
        intro he
        exact hns a (List.mem_cons_self a (b :: rest2)) (he ▸ hm)
      have hsp := splitCh_prepend '/' a ('/' :: joinComps (b :: rest2)) []
        (b :: rest2) hJ hxa
      rw [show joinComps (a :: b :: rest2)
          = a ++ '/' :: joinComps (b :: rest2) from rfl]
      rw [hsp]
      simp

theorem ddPre_of_all : ∀ l : List (List Char),
    (∀ y ∈ l, y = ['.', '.']) → ddPre l := by
  intro l
  induction l with
  | nil => intro _; trivial
  | cons c rest ih =>
    intro h
    exact Or.inl ⟨h c (List.mem_cons_self c rest),
      ih (fun y hy => h y (List.mem_cons_of_mem c hy))⟩

theorem ddPre_append_nonDD : ∀ (xs : List (List Char)) (c : List Char),
    ddPre xs → c ≠ ['.', '.'] → ddPre (xs ++ [c]) := by
  intro xs
  induction xs with
  | nil =>
    intro c _ hc
    refine Or.inr ?_
    intro y hy
    rcases List.mem_singleton.mp hy with h1
    rw [h1]
    exact hc
  | cons x rest ih =>
    intro c h hc
    rcases h with ⟨hx, h2⟩ | hnoDD
    · exact Or.inl ⟨hx, ih c h2 hc⟩
    · refine Or.inr ?_
      intro y hy
      rcases List.mem_cons.mp hy with h1 | h1
      · rw [h1]
        exact hnoDD x (List.mem_cons_self x rest)
      · rcases List.mem_append.mp h1 with h2 | h2
        · exact hnoDD y (List.mem_cons_of_mem x h2)
        · rcases List.mem_singleton.mp h2 with h3
          rw [h3]
          exact hc

theorem ddPre_append_drop : ∀ (xs : List (List Char)) (c : List Char),
    ddPre (xs ++ [c]) → ddPre xs := by
  intro xs
  induction xs with
  | nil => intro c _; trivial
  | cons x rest ih =>
    intro c h
    rcases h with ⟨hx, h2⟩ | hnoDD
    · exact Or.inl ⟨hx, ih c h2⟩
    · refine Or.inr ?_
      intro y hy
      exact hnoDD y (by
        rcases List.mem_cons.mp hy with h1 | h1
        · exact h1 ▸ List.mem_cons_self x (rest ++ [c])
        · exact List.mem_cons_of_mem x (List.mem_append_left [c] h1))

theorem ddPre_last_dd_all : ∀ (xs : List (List Char)) (c : List Char),
    ddPre (xs ++ [c]) → c = ['.', '.'] → ∀ y ∈ xs ++ [c], y = ['.', '.'] := by
  intro xs
  induction xs with
  | nil =>
    intro c _ hc y hy
    rcases List.mem_singleton.mp hy with h1
    rw [h1]
    exact hc
  | cons x rest ih =>
    intro c h hc y hy
    rcases h with ⟨hx, h2⟩ | hnoDD
    · rcases List.mem_cons.mp hy with h1 | h1
      · rw [h1]
        exact hx
      · exact ih c h2 hc y h1
    · exact absurd hc (hnoDD c
        (List.mem_cons_of_mem x (List.mem_append_right rest
          (List.mem_singleton.mpr rfl))))

theorem cleanStep_empty (rooted : Bool) (stack : List (List Char)) :
    cleanStep rooted stack [] = stack := by
  simp [cleanStep]

theorem cleanStep_dot (rooted : Bool) (stack : List (List Char)) :
    cleanStep rooted stack ['.'] = stack := by
  simp [cleanStep]

theorem cleanStep_push (rooted : Bool) (stack : List (List Char))
    {c : List Char} (h1 : c ≠ []) (h2 : c ≠ ['.']) (h3 : c ≠ ['.', '.']) :
    cleanStep rooted stack c = c :: stack := by
  unfold cleanStep
  rw [if_neg (by simp [h1, h2]), if_neg h3]

theorem foldl_cleanStep_push (rooted : Bool) :
    ∀ (comps : List (List Char)) (acc : List (List Char)),
      (∀ x ∈ comps, x ≠ [] ∧ x ≠ ['.'] ∧ x ≠ ['.', '.']) →
      List.foldl (cleanStep rooted) acc comps = comps.reverse ++ acc := by
  intro comps
  induction comps with
  | nil => intro acc _; simp
  | cons c rest ih =>
    intro acc h
    obtain ⟨h1, h2, h3⟩ := h c (List.mem_cons_self c rest)
    rw [List.foldl_cons, cleanStep_push rooted acc h1 h2 h3,
      ih (c :: acc) (fun x hx => h x (List.mem_cons_of_mem c hx))]
    simp

theorem foldl_cleanStep_ddPre :
    ∀ (comps : List (List Char)) (acc : List (List Char)),
      (∀ x ∈ comps, x ≠ [] ∧ x ≠ ['.']) → ddPre comps →
      (∀ x ∈ acc, x = ['.', '.']) →
      List.foldl (cleanStep false) acc comps = comps.reverse ++ acc := by
  intro comps
  induction comps with
  | nil => intro acc _ _ _; simp
  | cons c rest ih =>
    intro acc hel hdd hacc
    rcases hdd with ⟨hc, hdd2⟩ | hnoDD
    · subst hc
      have hstep : cleanStep false acc ['.', '.'] = ['.', '.'] :: acc := by
        cases acc with
        | nil => simp [cleanStep]
        | cons a rest2 =>
          have ha := hacc a (List.mem_cons_self a rest2)
          unfold cleanStep
          rw [if_neg (by simp), if_pos rfl]
          show (if a = ['.', '.'] then ['.', '.'] :: a :: rest2 else rest2)
            = ['.', '.'] :: a :: rest2
          rw [ha, if_pos rfl]
      rw [List.foldl_cons, hstep,
        ih (['.', '.'] :: acc) (fun x hx => hel x (List.mem_cons_of_mem _ hx))
          hdd2 (fun x hx => by
            rcases List.mem_cons.mp hx with h1 | h1
            · exact h1
            · exact hacc x h1)]
      simp
    · refine foldl_cleanStep_push false (c :: rest) acc ?_
      intro x hx
      exact ⟨(hel x hx).1, (hel x hx).2, hnoDD x hx⟩
theorem cleanStep_dd_nil (rooted : Bool) :
    cleanStep rooted [] ['.', '.'] = if rooted then [] else [['.', '.']] := by
  unfold cleanStep
  rw [if_neg (by simp), if_pos rfl]

theorem cleanStep_dd_cons (rooted : Bool) (top : List Char)
    (r : List (List Char)) :
    cleanStep rooted (top :: r) ['.', '.'] =
      if top = ['.', '.'] then ['.', '.'] :: top :: r else r := by
  unfold cleanStep
  rw [if_neg (by simp), if_pos rfl]

theorem cleanStep_preserves (rooted : Bool) (acc : List (List Char))
    (c : List Char) (hns : ('/' : Char) ∉ c)
    (hel : ∀ x ∈ acc, x ≠ [] ∧ ('/' : Char) ∉ x ∧ x ≠ ['.'])
    (hT : rooted = true → noDD acc)
    (hF : rooted = false → ddPre acc.reverse) :
    (∀ x ∈ cleanStep rooted acc c, x ≠ [] ∧ ('/' : Char) ∉ x ∧ x ≠ ['.']) ∧
    (rooted = true → noDD (cleanStep rooted acc c)) ∧
    (rooted = false → ddPre (cleanStep rooted acc c).reverse) := by
  by_cases h0 : c = [] ∨ c = ['.']
  · unfold cleanStep
    rw [if_pos h0]
    exact ⟨hel, hT, hF⟩
  · by_cases hdd : c = ['.', '.']
    · subst hdd
      cases acc with
      | nil =>
        rw [cleanStep_dd_nil rooted]
        cases rooted with
        | true =>
          rw [if_pos rfl]
          refine ⟨?_, fun _ => ?_, fun hcontra => absurd hcontra (by simp)⟩
          · intro x hx
            simp at hx
          · intro x hx
            simp at hx
        | false =>
          rw [if_neg (by simp)]
          refine ⟨?_, fun hcontra => absurd hcontra (by simp), fun _ => ?_⟩
          · intro x hx
            rcases List.mem_singleton.mp hx with h1
            rw [h1]
            exact ⟨by simp, by simp, by simp⟩
          · exact Or.inl ⟨rfl, trivial⟩
      | cons top r =>
        rw [cleanStep_dd_cons rooted top r]
        cases rooted with
        | true =>
          have htop : top ≠ ['.', '.'] := hT rfl top (List.mem_cons_self top r)
          rw [if_neg htop]
          exact ⟨fun x hx => hel x (List.mem_cons_of_mem top hx),
            fun _ => fun x hx => hT rfl x (List.mem_cons_of_mem top hx),
            fun hcontra => absurd hcontra (by simp)⟩
        | false =>
          have hpre : ddPre (r.reverse ++ [top]) := by
            simpa using hF rfl
          by_cases htop : top = ['.', '.']
          · rw [if_pos htop]
            have hall : ∀ y ∈ r.reverse ++ [top], y = ['.', '.'] :=
              ddPre_last_dd_all r.reverse top hpre htop
            refine ⟨?_, fun hcontra => absurd hcontra (by simp), fun _ => ?_⟩
            · intro x hx
              rcases List.mem_cons.mp hx with h1 | h1
              · rw [h1]
                exact ⟨by simp, by simp, by simp⟩
              · exact hel x h1
            · refine ddPre_of_all _ ?_
              intro y hy
              rw [List.reverse_cons, List.reverse_cons] at hy
              rcases List.mem_append.mp hy with h1 | h1
              · exact hall y h1
              · rcases List.mem_singleton.mp h1 with h2
                rw [h2]
          · rw [if_neg htop]
            exact ⟨fun x hx => hel x (List.mem_cons_of_mem top hx),
              fun hcontra => absurd hcontra (by simp),
              fun _ => ddPre_append_drop r.reverse top hpre⟩
    · have h1 : c ≠ [] := fun h => h0 (Or.inl h)
      have h2 : c ≠ ['.'] := fun h => h0 (Or.inr h)
      rw [cleanStep_push rooted acc h1 h2 hdd]
      refine ⟨?_, fun hr => ?_, fun hr => ?_⟩
      · intro x hx
        rcases List.mem_cons.mp hx with hx1 | hx1
        · rw [hx1]
          exact ⟨h1, hns, h2⟩
        · exact hel x hx1
      · intro x hx
        rcases List.mem_cons.mp hx with hx1 | hx1
        · rw [hx1]
          exact hdd
        · exact hT hr x hx1
      · rw [List.reverse_cons]
        exact ddPre_append_nonDD acc.reverse c (hF hr) hdd

theorem cleanFold_inv (rooted : Bool) :
    ∀ (comps : List (List Char)) (acc : List (List Char)),
      (∀ x ∈ comps, ('/' : Char) ∉ x) →
      (∀ x ∈ acc, x ≠ [] ∧ ('/' : Char) ∉ x ∧ x ≠ ['.']) →
      (rooted = true → noDD acc) →
      (rooted = false → ddPre acc.reverse) →
      (∀ x ∈ List.foldl (cleanStep rooted) acc comps,
        x ≠ [] ∧ ('/' : Char) ∉ x ∧ x ≠ ['.']) ∧
      (rooted = true → noDD (List.foldl (cleanStep rooted) acc comps)) ∧
      (rooted = false →
        ddPre (List.foldl (cleanStep rooted) acc comps).reverse) := by
  intro comps
  induction comps with
  | nil => intro acc _ hel hT hF; exact ⟨hel, hT, hF⟩
  | cons c rest ih =>
    intro acc hns hel hT hF
    have hstep := cleanStep_preserves rooted acc c
      (hns c (List.mem_cons_self c rest)) hel hT hF
    rw [List.foldl_cons]
    exact ih (cleanStep rooted acc c)
      (fun x hx => hns x (List.mem_cons_of_mem c hx))
      hstep.1 hstep.2.1 hstep.2.2

theorem cleanFold_canonComps (rooted : Bool) (comps : List (List Char))
    (hns : ∀ x ∈ comps, ('/' : Char) ∉ x) :
    canonComps rooted (cleanFold rooted comps) := by
  have hinv := cleanFold_inv rooted comps []
    hns (by intro x hx; simp at hx)
    (fun _ => by intro x hx; simp at hx)
    (fun _ => trivial)
  unfold cleanFold canonComps
  refine ⟨fun c hc => hinv.1 c (List.mem_reverse.mp hc), ?_⟩
  cases rooted with
  | true =>
    rw [if_pos rfl]
    intro x hx
    exact hinv.2.1 rfl x (List.mem_reverse.mp hx)
  | false =>
    rw [if_neg (by simp)]
    exact hinv.2.2 rfl

theorem cleanChars_canonPath (p : List Char) : canonPath (cleanChars p) := by
  unfold cleanChars
  by_cases hp : p = []
  · rw [if_pos hp]
    exact Or.inl rfl
  · rw [if_neg hp]
    have hc := cleanFold_canonComps (isRooted p) (splitCh '/' p)
      (fun x hx c => splitCh_noslash '/' p x hx c)
    cases hq : cleanFold (isRooted p) (splitCh '/' p) with
    | nil =>
      unfold renderPath
      cases hr : isRooted p with
      | false =>
        rw [if_neg (by simp), if_pos rfl]
        exact Or.inl rfl
      | true =>
        rw [if_pos rfl]
        exact Or.inr (Or.inl rfl)
    | cons a t =>
      rw [hq] at hc
      exact Or.inr (Or.inr ⟨isRooted p, a :: t, by simp, hc, rfl⟩)

theorem joinComps_cons_shape (c1 : List Char) (rest : List (List Char)) :
    ∃ tail, joinComps (c1 :: rest) = c1 ++ tail := by
  cases rest with
  | nil => exact ⟨[], by simp [joinComps]⟩
  | cons b rest2 => exact ⟨'/' :: joinComps (b :: rest2), rfl⟩

theorem canonPath_ne_nil {q : List Char} (h : canonPath q) : q ≠ [] := by
  rcases h with h | h | ⟨rooted, comps, hne, hcanon, hq⟩
  · rw [h]; simp
  · rw [h]; simp
  · subst hq
    unfold renderPath
    cases rooted with
    | true => simp
    | false =>
      rw [if_neg (by simp), if_neg hne]
      cases comps with
      | nil => exact absurd rfl hne
      | cons c1 rest =>
        obtain ⟨tail, htail⟩ := joinComps_cons_shape c1 rest
        rw [htail]
        have hc1 : c1 ≠ [] := (hcanon.1 c1 (List.mem_cons_self c1 rest)).1
        cases c1 with
        | nil => exact absurd rfl hc1
        | cons ch cr => simp

theorem foldl_clean_canon (rooted : Bool) (comps : List (List Char))
    (hcanon : canonComps rooted comps) :
    List.foldl (cleanStep rooted) [] comps = comps.reverse := by
  obtain ⟨hel, hstruct⟩ := hcanon
  cases rooted with
  | true =>
    rw [if_pos rfl] at hstruct
    have := foldl_cleanStep_push true comps []
      (fun x hx => ⟨(hel x hx).1, (hel x hx).2.2, hstruct x hx⟩)
    simpa using this
  | false =>
    rw [if_neg (by simp)] at hstruct
    have := foldl_cleanStep_ddPre comps []
      (fun x hx => ⟨(hel x hx).1, (hel x hx).2.2⟩) hstruct
      (by intro x hx; simp at hx)
    simpa using this

theorem foldl_clean_canon_append (rooted : Bool) (comps : List (List Char))
    (c : List Char) (hcanon : canonComps rooted comps)
    (hc1 : c ≠ []) (hc3 : c ≠ ['.']) (hc4 : c ≠ ['.', '.']) :
    List.foldl (cleanStep rooted) [] (comps ++ [c]) = (comps ++ [c]).reverse := by
  rw [List.foldl_append, foldl_clean_canon rooted comps hcanon]
  show cleanStep rooted comps.reverse c = (comps ++ [c]).reverse
  rw [cleanStep_push rooted comps.reverse hc1 hc3 hc4]
  simp

theorem foldl_clean_canon_append_nil (rooted : Bool) (comps : List (List Char))
    (hcanon : canonComps rooted comps) :
    List.foldl (cleanStep rooted) [] (comps ++ [[]]) = comps.reverse := by
  rw [List.foldl_append, foldl_clean_canon rooted comps hcanon]
  exact cleanStep_empty rooted comps.reverse

theorem renderPath_true (comps : List (List Char)) :
    renderPath true comps = '/' :: joinComps comps := by
  unfold renderPath
  rw [if_pos rfl]

theorem renderPath_false (comps : List (List Char)) (h : comps ≠ []) :
    renderPath false comps = joinComps comps := by
  unfold renderPath
  rw [if_neg (by simp), if_neg h]

theorem dirPre_cons (x : Char) (rest : List Char) :
    dirPre (x :: rest) =
      if ('/' : Char) ∈ rest then x :: dirPre rest
      else if x = '/' then ['/'] else [] := rfl

theorem dirPre_noslash : ∀ c : List Char, ('/' : Char) ∉ c → dirPre c = [] := by
  intro c
  cases c with
  | nil => intro _; rfl
  | cons x rest =>
    intro h
    rw [dirPre_cons, if_neg (fun hm => h (List.mem_cons_of_mem x hm)),
      if_neg (by intro hx; subst hx; exact h (List.mem_cons_self _ rest))]

theorem dirPre_append_slash :
    ∀ (d c : List Char), ('/' : Char) ∉ c →
      dirPre (d ++ '/' :: c) = d ++ ['/'] := by
  intro d
  induction d with
  | nil =>
    intro c hns
    show dirPre ('/' :: c) = ['/']
    rw [dirPre_cons, if_neg hns, if_pos rfl]
  | cons x d2 ih =>
    intro c hns
    have hmem : ('/' : Char) ∈ d2 ++ '/' :: c :=
      List.mem_append_right d2 (List.mem_cons_self '/' c)
    show dirPre (x :: (d2 ++ '/' :: c)) = (x :: d2) ++ ['/']
    rw [dirPre_cons, if_pos hmem, ih c hns]
    rfl

theorem cleanChars_render_append (rooted : Bool) (comps : List (List Char))
    (c : List Char) (hne : comps ≠ []) (hcanon : canonComps rooted comps)
    (hns : ('/' : Char) ∉ c) (hc1 : c ≠ []) (hc3 : c ≠ ['.'])
    (hc4 : c ≠ ['.', '.']) :
    cleanChars (renderPath rooted comps ++ '/' :: c)
      = renderPath rooted comps ++ '/' :: c := by
  have hcomps_ns : ∀ x ∈ comps, ('/' : Char) ∉ x :=
    fun x hx => (hcanon.1 x hx).2.1
  cases rooted with
  | true =>
    rw [renderPath_true]
    show cleanChars ('/' :: (joinComps comps ++ '/' :: c)) = _
    unfold cleanChars
    rw [if_neg (by simp)]
    have hroot : isRooted ('/' :: (joinComps comps ++ '/' :: c)) = true := by
      simp [isRooted]
    rw [hroot]
    have hsplit : splitCh '/' ('/' :: (joinComps comps ++ '/' :: c))
        = [] :: (comps ++ [c]) := by
      rw [splitCh_cons_sep, splitCh_append_sep_comp '/' _ c hns,
        splitCh_joinComps comps hne hcomps_ns]
    rw [hsplit]
    unfold cleanFold
    rw [List.foldl_cons, cleanStep_empty,
      foldl_clean_canon_append true comps c hcanon hc1 hc3 hc4,
      List.reverse_reverse, renderPath_true,
      joinComps_append_single c comps hne]
    rfl
  | false =>
    cases comps with
    | nil => exact absurd rfl hne
    | cons c1 rest =>
      have hc1el := hcanon.1 c1 (List.mem_cons_self c1 rest)
      cases c1 with
      | nil => exact absurd rfl hc1el.1
      | cons ch c1' =>
        have hch : ch ≠ '/' :=
          fun h => hc1el.2.1 (h ▸ List.mem_cons_self ch c1')
        obtain ⟨tail, htail⟩ := joinComps_cons_shape (ch :: c1') rest
        have hshape : joinComps ((ch :: c1') :: rest) ++ '/' :: c
            = ch :: (c1' ++ tail ++ '/' :: c) := by
          rw [htail]
          simp
        rw [renderPath_false ((ch :: c1') :: rest) (by simp)]
        unfold cleanChars
        have hpne : joinComps ((ch :: c1') :: rest) ++ '/' :: c ≠ [] := by
          rw [hshape]
          simp
        rw [if_neg hpne]
        have hroot : isRooted (joinComps ((ch :: c1') :: rest) ++ '/' :: c)
            = false := by
          rw [hshape]
          simp [isRooted, hch]
        rw [hroot]
        have hsplit : splitCh '/' (joinComps ((ch :: c1') :: rest) ++ '/' :: c)
            = ((ch :: c1') :: rest) ++ [c] := by
          rw [splitCh_append_sep_comp '/' _ c hns,
            splitCh_joinComps _ (by simp) hcomps_ns]
        rw [hsplit]
        unfold cleanFold
        rw [foldl_clean_canon_append false _ c hcanon hc1 hc3 hc4,
          List.reverse_reverse, renderPath_false _ (by simp),
          joinComps_append_single c _ (by simp)]

theorem cleanChars_append_slash {q : List Char} (h : canonPath q) :
    cleanChars (q ++ ['/']) = q := by
  rcases h with h | h | ⟨rooted, comps, hne, hcanon, hq⟩
  · subst h
    rfl
  · subst h
    rfl
  · subst hq
    have hcomps_ns : ∀ x ∈ comps, ('/' : Char) ∉ x :=
      fun x hx => (hcanon.1 x hx).2.1
    cases rooted with
    | true =>
      rw [renderPath_true]
      show cleanChars ('/' :: (joinComps comps ++ ['/'])) = _
      unfold cleanChars
      rw [if_neg (by simp)]
      have hroot : isRooted ('/' :: (joinComps comps ++ ['/'])) = true := by
        simp [isRooted]
      rw [hroot]
      have hsplit : splitCh '/' ('/' :: (joinComps comps ++ ['/']))
          = [] :: (comps ++ [[]]) := by
        rw [show (joinComps comps ++ ['/'])
            = joinComps comps ++ '/' :: [] from rfl]
        rw [splitCh_cons_sep, splitCh_append_sep_comp '/' _ [] (by simp),
          splitCh_joinComps comps hne hcomps_ns]
      rw [hsplit]
      unfold cleanFold
      rw [List.foldl_cons, cleanStep_empty,
        foldl_clean_canon_append_nil true comps hcanon,
        List.reverse_reverse, renderPath_true]
    | false =>
      cases comps with
      | nil => exact absurd rfl hne
      | cons c1 rest =>
        have hc1el := hcanon.1 c1 (List.mem_cons_self c1 rest)
        cases c1 with
        | nil => exact absurd rfl hc1el.1
        | cons ch c1' =>
          have hch : ch ≠ '/' :=
            fun h => hc1el.2.1 (h ▸ List.mem_cons_self ch c1')
          obtain ⟨tail, htail⟩ := joinComps_cons_shape (ch :: c1') rest
          have hshape : joinComps ((ch :: c1') :: rest) ++ ['/']
              = ch :: (c1' ++ tail ++ ['/']) := by
            rw [htail]
            simp
          rw [renderPath_false ((ch :: c1') :: rest) (by simp)]
          unfold cleanChars
          have hpne : joinComps ((ch :: c1') :: rest) ++ ['/'] ≠ [] := by
            rw [hshape]
            simp
          rw [if_neg hpne]
          have hroot : isRooted (joinComps ((ch :: c1') :: rest) ++ ['/'])
              = false := by
            rw [hshape]
            simp [isRooted, hch]
          rw [hroot]
          have hsplit : splitCh '/' (joinComps ((ch :: c1') :: rest) ++ ['/'])
              = ((ch :: c1') :: rest) ++ [[]] := by
            rw [show (joinComps ((ch :: c1') :: rest) ++ ['/'])
                = joinComps ((ch :: c1') :: rest) ++ '/' :: [] from rfl]
            rw [splitCh_append_sep_comp '/' _ [] (by simp),
              splitCh_joinComps _ (by simp) hcomps_ns]
          rw [hsplit]
          unfold cleanFold
          rw [foldl_clean_canon_append_nil false _ hcanon,
            List.reverse_reverse, renderPath_false _ (by simp)]

theorem dirClean_join_cancel (d c : List Char) (hd : canonPath d)
    (hc1 : c ≠ []) (hns : ('/' : Char) ∉ c) (hc3 : c ≠ ['.'])
    (hc4 : c ≠ ['.', '.']) :
    cleanChars (dirPre (cleanChars (d ++ '/' :: c))) = d := by
  rcases hd with h | h | ⟨rooted, comps, hne, hcanon, hq⟩
  · subst h
    have hm : cleanChars (['.'] ++ '/' :: c) = c := by
      unfold cleanChars
      rw [if_neg (by simp)]
      have hroot : isRooted (['.'] ++ '/' :: c) = false := by
        simp [isRooted]
      rw [hroot]
      have hsplit : splitCh '/' (['.'] ++ '/' :: c) = [['.'], c] := by
        rw [splitCh_append_sep_comp '/' ['.'] c hns,
          splitCh_noslash_single '/' ['.'] (by simp)]
        rfl
      rw [hsplit]
      unfold cleanFold
      rw [List.foldl_cons, cleanStep_dot, List.foldl_cons,
        cleanStep_push false [] hc1 hc3 hc4, List.foldl_nil]
      show renderPath false [c] = c
      rw [renderPath_false [c] (by simp)]
      rfl
    rw [hm, dirPre_noslash c hns]
    rfl
  · subst h
    have hm : cleanChars (['/'] ++ '/' :: c) = '/' :: c := by
      unfold cleanChars
      rw [if_neg (by simp)]
      have hroot : isRooted (['/'] ++ '/' :: c) = true := by
        simp [isRooted]
      rw [hroot]
      have hsplit : splitCh '/' (['/'] ++ '/' :: c) = [[], [], c] := by
        show splitCh '/' ('/' :: '/' :: c) = [[], [], c]
        rw [splitCh_cons_sep, splitCh_cons_sep,
          splitCh_noslash_single '/' c (fun ch hm => by
            intro he
            exact hns (he ▸ hm))]
      rw [hsplit]
      unfold cleanFold
      rw [List.foldl_cons, cleanStep_empty, List.foldl_cons, cleanStep_empty,
        List.foldl_cons, cleanStep_push true [] hc1 hc3 hc4, List.foldl_nil]
      show renderPath true [c] = '/' :: c
      rw [renderPath_true]
      rfl
    rw [hm]
    have hdir : dirPre ('/' :: c) = ['/'] := by
      rw [dirPre_cons, if_neg hns, if_pos rfl]
    rw [hdir]
    rfl
  · subst hq
    rw [cleanChars_render_append rooted comps c hne hcanon hns hc1 hc3 hc4,
      dirPre_append_slash (renderPath rooted comps) c hns,
      cleanChars_append_slash (Or.inr (Or.inr ⟨rooted, comps, hne, hcanon, rfl⟩))]

theorem joinChars_two (d c : List Char) (hd : d ≠ []) :
    joinChars [d, c] = cleanChars (d ++ '/' :: c) := by
  unfold joinChars
  rw [List.foldl_cons, List.foldl_cons, List.foldl_nil]
  rw [if_pos rfl, if_neg hd, if_neg (by simp)]

/-! ### Claim C8 -/

/-- C8: the completion-marker key is `path.Join(path.Dir(key),
completedFileName)`, and for a completed-file name that is a plain file
name (nonempty, slash-free, not `.` or `..`) the construction is
idempotent: building the marker key of a marker key returns it
unchanged, for every artifact key. -/
theorem C8_marker_key_idempotent :
    (∀ k c : String, buildCompletionMarkerKey k c = goJoin (goDir k) c) ∧
    (∀ k c : String, c.data ≠ [] → ('/' : Char) ∉ c.data →
      c.data ≠ ['.'] → c.data ≠ ['.', '.'] →
      buildCompletionMarkerKey (buildCompletionMarkerKey k c) c
        = buildCompletionMarkerKey k c) := by
  refine ⟨fun k c => rfl, ?_⟩
  intro k c hc1 hns hc3 hc4
  have hdcanon : canonPath (cleanChars (dirPre k.data)) :=
    cleanChars_canonPath (dirPre k.data)
  have hdne : cleanChars (dirPre k.data) ≠ [] := canonPath_ne_nil hdcanon
  have hbuild1 : buildCompletionMarkerKey k c
      = ⟨cleanChars (cleanChars (dirPre k.data) ++ '/' :: c.data)⟩ := by
    show (⟨joinChars [cleanChars (dirPre k.data), c.data]⟩ : String) = _
    rw [joinChars_two (cleanChars (dirPre k.data)) c.data hdne]
  rw [hbuild1]
  show (⟨joinChars [cleanChars (dirPre (cleanChars
      (cleanChars (dirPre k.data) ++ '/' :: c.data))), c.data]⟩ : String) = _
  rw [dirClean_join_cancel (cleanChars (dirPre k.data)) c.data hdcanon
    hc1 hns hc3 hc4]
  rw [joinChars_two (cleanChars (dirPre k.data)) c.data hdne]

/-- Closed instance of C8 at the repository's own test vector. -/
theorem C8_witness :
    buildCompletionMarkerKey "schemas/v1/schema.sql" "completed"
        = "schemas/v1/completed" ∧
    buildCompletionMarkerKey
        (buildCompletionMarkerKey "schemas/v1/schema.sql" "completed")
        "completed"
      = buildCompletionMarkerKey "schemas/v1/schema.sql" "completed" := by
  refine ⟨rfl, ?_⟩
  exact C8_marker_key_idempotent.2 "schemas/v1/schema.sql" "completed"
    (by decide) (by decide) (by decide) (by decide)

end DbSchemaSync
